import Mathlib

/-!
# ghz reporter: statistics aggregation core

A shallow embedding of `src/ghz/reporter.go` and `src/ghz/types.go`.

Modelling conventions.

* `time.Duration` (an `int64` count of nanoseconds) and `time.Time` are `Int`.
* `float64` values are rationals (`ℚ`). Comparisons are exact. The operations
  whose rounded value enters a statement below are rounded to the nearest
  `float64` (`roundFloat64`: 53 significant bits, ties to even), each operation
  on its own, without fused multiply-add: `Duration.Seconds()`, the bucket marks,
  the bucket frequency, and the product in
  `time.Duration(x * float64(time.Second))` for `Fastest`, `Slowest` and the
  percentile table. The running sum of the latencies, the average, the
  throughput and the rank index `(p / 100) * N` are computed exactly.
* The conversion of a `float64` to `int64` truncates toward zero. For a value
  outside the `int64` range Go leaves the result to the implementation;
  `toInt64` gives what the amd64 conversion gives, `-2^63`.
* `uint64` and `int` counters that start at zero and are incremented once per
  record are `Nat` / `Int` without wrap-around: a run cannot ingest `2^63`
  records.
* Go maps `map[string]int` are association lists in order of first insertion;
  reading an absent key gives `0`, as in Go.
* A `nil` slice and an empty slice are both the empty list.
* The channel `r.results` is the list of records in arrival order; `Track`
  consumes it from the front until it is closed (the end of the list).
* `time.Now()` is an explicit argument `now`.
-/

namespace ghz

/-! ## Data model (`types.go`) -/

/-- Max size of the buffer of result channel (`maxResult`). -/
def maxResult : Nat := 1000000

/-- Nanoseconds in one second (`time.Second`). -/
def Second : Int := 1000000000

/-- Conversion of a float to an integer type, as in `int(x)`: the fractional part
is discarded (truncation toward zero). -/
def truncate (x : ℚ) : Int := Int.tdiv x.num (x.den : Int)

/-- Auxiliary for `bitLength`, by recursion on fuel. -/
def bitLengthAux : Nat → Nat → Nat
  | 0, _ => 0
  | fuel + 1, m => if m = 0 then 0 else bitLengthAux fuel (m / 2) + 1

/-- Number of binary digits of `n` (0 for `n = 0`). -/
def bitLength (n : Nat) : Nat := bitLengthAux n n

/-- Binary exponent of a positive rational `x`: the integer `e` with
`2^e ≤ x < 2^(e+1)`. -/
def binaryExponent (x : ℚ) : Int :=
  let k : Int := (bitLength x.num.natAbs : Int) - (bitLength x.den : Int)
  if (2 : ℚ) ^ k ≤ x then k else k - 1

/-- Rounding of a rational to the nearest integer, ties to the even one. -/
def roundHalfEven (s : ℚ) : Int :=
  let f : Int := ⌊s⌋
  let r : ℚ := s - (f : ℚ)
  if r < 1 / 2 then f else if 1 / 2 < r then f + 1 else if f % 2 = 0 then f else f + 1

/-- Rounding of a rational to the nearest `float64` (53 significant bits, ties to
even), which is what an IEEE-754 operation returns for the exact result; the
exponent range is not limited. -/
def roundFloat64 (x : ℚ) : ℚ :=
  if x = 0 then 0
  else
    let e : Int := binaryExponent |x| - 52
    let m : Int := roundHalfEven (|x| / (2 : ℚ) ^ e)
    (if x < 0 then -1 else 1) * ((m : ℚ) * (2 : ℚ) ^ e)

/-- The method `Duration.Seconds()`:
`float64(d / Second) + float64(d % Second) / 1e9`, the quotient and the sum each
rounded to `float64` (both integer conversions are exact for an `int64`). -/
def Seconds (d : Int) : ℚ :=
  let sec : Int := Int.tdiv d Second
  let nsec : Int := Int.tmod d Second
  roundFloat64 ((sec : ℚ) + roundFloat64 ((nsec : ℚ) / 1000000000))

/-- Conversion of a `float64` to `int64`: truncation toward zero; a value outside
the `int64` range gives `-2^63`, as the amd64 conversion does (Go leaves that
result to the implementation). -/
def toInt64 (x : ℚ) : Int :=
  let t : Int := truncate x
  if -9223372036854775808 ≤ t ∧ t < 9223372036854775808 then t else -9223372036854775808

/-- The conversion `time.Duration(x * float64(time.Second))` of a `float64` number
of seconds: the product is rounded to `float64` and converted to `int64`. -/
def toDuration (x : ℚ) : Int := toInt64 (roundFloat64 (x * (Second : ℚ)))

/-- ResultDetail data for each result. -/
structure ResultDetail where
  Timestamp : Int
  Latency : Int
  Error : String
  Status : String
deriving DecidableEq, Repr

/-- Result of a call, as received on the result channel. `Err` is `none` for a
nil error and `some s` for an error whose `Error()` text is `s`. -/
structure CallResult where
  Err : Option String
  Status : String
  Duration : Int
  Timestamp : Int
deriving DecidableEq, Repr

/-- Modelled from the spec: the enumeration `StopReason` is declared outside the
source files at hand; the core treats it as an opaque label that is echoed into
the report and has a default "normal end" value. -/
structure StopReason where
  label : String
deriving DecidableEq, Repr

/-- Modelled from the spec: the default stop reason `ReasonNormalEnd`. -/
def ReasonNormalEnd : StopReason := ⟨"normal"⟩

/-- Modelled from the spec: the method `StopReason.String()`. -/
def StopReason.String (s : StopReason) : String := s.label

/-- RunConfig represents the request configs. -/
structure RunConfig where
  Name : String
  Cpus : Int
  Tags : List Nat
  SkipFirst : Int
  CountErrorLatency : Bool
deriving DecidableEq, Repr

/-- A Go `map[string]int`. -/
abbrev Dist := List (String × Int)

/-- Map read `m[k]`: the stored value, or `0` for an absent key. -/
def Dist.get : Dist → String → Int
  | [], _ => 0
  | (k', v) :: t, k => if k' = k then v else Dist.get t k

/-- The statement `m[k]++`. -/
def Dist.incr : Dist → String → Dist
  | [], k => [(k, 1)]
  | (k', v) :: t, k => if k' = k then (k', v + 1) :: t else (k', v) :: Dist.incr t k

/-- Sum of the values stored in a map. -/
def Dist.total (d : Dist) : Int := (d.map Prod.snd).sum

/-- Bucket holds histogram data. -/
structure Bucket where
  Mark : ℚ
  Count : Int
  Frequency : ℚ
deriving DecidableEq, Repr

/-- LatencyDistribution holds latency distribution data. -/
structure LatencyDistribution where
  Percentage : Int
  Latency : Int
deriving DecidableEq, Repr

/-- Report holds the data for the full test. -/
structure Report where
  Name : String
  EndReason : StopReason
  Date : Int
  Count : Nat
  Total : Int
  Average : Int
  Fastest : Int
  Slowest : Int
  Rps : ℚ
  ErrorDist : Dist
  StatusCodeDist : Dist
  LatencyDistribution : List LatencyDistribution
  Histogram : List Bucket
  Details : List ResultDetail
  Tags : List (String × String)
deriving DecidableEq, Repr

/-- Reporter gathers all the results. The channels `results` and `done` are not
fields of the model: the first is the argument of `Track`, the second only
signals that `Track` has returned. -/
structure Reporter where
  config : RunConfig
  start : Int
  totalLatenciesSec : ℚ
  details : List ResultDetail
  errorDist : Dist
  statusCodeDist : Dist
  totalCount : Nat
  stopReason : String
deriving DecidableEq, Repr

/-! ## Collector (`NewReporter`, `Track`) -/

/-- The constructor `NewReporter`. -/
def NewReporter (name : String) (skipFirst : Int) (countErrorLatency : Bool) : Reporter :=
  { config := { Name := name, Cpus := 0, Tags := [], SkipFirst := skipFirst,
                CountErrorLatency := countErrorLatency }
    start := 0
    totalLatenciesSec := 0
    details := []
    errorDist := []
    statusCodeDist := []
    totalCount := 0
    stopReason := ReasonNormalEnd.String }

/-- The error text `errStr` of a record: empty unless the record carries an error. -/
def errStr (res : CallResult) : String :=
  match res.Err with
  | none => ""
  | some s => s

/-- The `ResultDetail` that `Track` builds from a record. -/
def toDetail (res : CallResult) : ResultDetail :=
  { Latency := res.Duration, Timestamp := res.Timestamp, Status := res.Status,
    Error := errStr res }

/-- The aggregate updates of one iteration of the loop of `Track`, for a record
that is not skipped. -/
def record (r : Reporter) (res : CallResult) : Reporter :=
  let r := { r with totalCount := r.totalCount + 1 }
  let r := { r with totalLatenciesSec := r.totalLatenciesSec + Seconds res.Duration }
  let r := { r with statusCodeDist := r.statusCodeDist.incr res.Status }
  let r := match res.Err with
    | some s => { r with errorDist := r.errorDist.incr s }
    | none => r
  if r.details.length < maxResult then
    { r with details := r.details ++ [toDetail res] }
  else r

/-- One iteration of the loop of `Track`; the state is the local `skipCount`
together with the reporter. -/
def trackStep (st : Int × Reporter) (res : CallResult) : Int × Reporter :=
  if st.1 < st.2.config.SkipFirst then (st.1 + 1, st.2)
  else (st.1, record st.2 res)

/-- The loop of `Track` started with the given `skipCount`. -/
def trackLoop (skipCount : Int) (r : Reporter) (results : List CallResult) : Int × Reporter :=
  results.foldl trackStep (skipCount, r)

/-- The method `Track`: consumes the result channel until it is closed. -/
def Track (r : Reporter) (results : List CallResult) : Reporter :=
  (trackLoop 0 r results).2

/-! ## Histogram builder (`trackHistogram`) -/

/-- The boundary array `buckets` that `trackHistogram` fills in: with
`bs = (slowest - fastest) / 10`, the `bc = 10` marks `fastest + bs * i` followed by
`slowest`; the difference, the quotient, each product and each sum are rounded to
`float64`. -/
def bucketMarks (slowest fastest : ℚ) : List ℚ :=
  let bc : Nat := 10
  let bs : ℚ := roundFloat64 (roundFloat64 (slowest - fastest) / (bc : ℚ))
  (List.range bc).map
    (fun (i : Nat) => roundFloat64 (fastest + roundFloat64 (bs * (i : ℚ)))) ++ [slowest]

/-- The statement `counts[bi]++`. -/
def bump (counts : List Int) (bi : Nat) : List Int :=
  counts.set bi (counts.getD bi 0 + 1)

/-- The cursor loop `for i := 0; i < len(latencies); { ... }` of `trackHistogram`.
Every execution of the loop body costs one unit of fuel; the result is `none`
when the fuel is used up before the loop condition fails. The loop state is the
sample cursor `i`, the boundary cursor `bi`, the array `counts` and `max`. -/
def histLoop (latencies buckets : List ℚ) :
    Nat → Nat → Nat → List Int → Int → Option (List Int × Int)
  | 0, i, _, counts, max =>
    if i < latencies.length then none else some (counts, max)
  | fuel + 1, i, bi, counts, max =>
    if h : i < latencies.length then
      if latencies[i] ≤ buckets.getD bi 0 then
        let counts := bump counts bi
        let max := if max < counts.getD bi 0 then counts.getD bi 0 else max
        histLoop latencies buckets fuel (i + 1) bi counts max
      else if bi < buckets.length - 1 then
        histLoop latencies buckets fuel i (bi + 1) counts max
      else
        histLoop latencies buckets fuel i bi counts max
    else some (counts, max)

/-- The bucket `res[i]` that `trackHistogram` builds from `buckets[i]`,
`counts[i]` and the number `n` of samples; the frequency is the `float64`
quotient of the count by `n`. -/
def toBucket (n : Nat) (mark : ℚ) (count : Int) : Bucket :=
  { Mark := mark, Count := count, Frequency := roundFloat64 ((count : ℚ) / (n : ℚ)) }

/-- The function `trackHistogram`, run with the given fuel for its cursor loop. -/
def trackHistogram (fuel : Nat) (latencies : List ℚ) (slowest fastest : ℚ) :
    Option (List Bucket) :=
  let buckets := bucketMarks slowest fastest
  let counts : List Int := List.replicate buckets.length 0
  match histLoop latencies buckets fuel 0 0 counts 0 with
  | none => none
  | some (counts, _) => some (List.zipWith (toBucket latencies.length) buckets counts)

/-! ## Percentile extractor (`latencies`) -/

/-- The fixed percentile ranks. -/
def pctls : List Int := [10, 25, 50, 75, 90, 95, 99]

/-- The index `di` that `latencies` computes for rank `p` over `n` samples. -/
def rankIndex (p : Int) (n : Nat) : Int :=
  let ip : ℚ := ((p : ℚ) / 100) * (n : ℚ)
  let di : Int := truncate ip
  let di : Int := if ip = (di : ℚ) then di - 1 else di
  if di < 0 then 0 else di

/-- The table entry built from rank `p` and its resolved value `d`: a zero-valued
entry is left in place when `d` is not positive. -/
def pctlEntry (p : Int) (d : ℚ) : LatencyDistribution :=
  if d > 0 then { Percentage := p, Latency := toDuration d }
  else { Percentage := 0, Latency := 0 }

/-- The function `latencies`. The result is `none` when an index is out of range
(a run-time panic in Go). -/
def latencies (lats : List ℚ) : Option (List LatencyDistribution) :=
  match pctls.mapM (fun p => lats[(rankIndex p lats.length).toNat]?) with
  | none => none
  | some data => some (List.zipWith pctlEntry pctls data)

/-! ## Finalizer (`Finalize`) -/

/-- The eligible latencies selected by `Finalize`, before sorting. -/
def okLats (r : Reporter) : List ℚ :=
  (r.details.filter (fun d => d.Error == "" || r.config.CountErrorLatency)).map
    (fun d => Seconds d.Latency)

/-- The call `sort.Float64s`. -/
def sortFloat64s (xs : List ℚ) : List ℚ := xs.insertionSort (· ≤ ·)

/-- The report as `Finalize` first builds it: every field not listed in the
composite literal has its zero value. -/
def baseReport (r : Reporter) (stopReason : StopReason) (now : Int) : Report :=
  { Name := r.config.Name, EndReason := stopReason, Date := now,
    Count := r.totalCount, ErrorDist := r.errorDist, StatusCodeDist := r.statusCodeDist,
    Total := 0, Average := 0, Fastest := 0, Slowest := 0, Rps := 0,
    LatencyDistribution := [], Histogram := [], Details := [], Tags := [] }

/-- The method `Finalize`, with fuel for the loop of `trackHistogram` and the
clock reading `now`. It returns the reporter as the call leaves it together with
the report; `none` means that the call does not return a report (the histogram
loop ran out of fuel, or an index was out of range). -/
def Finalize (fuel : Nat) (r : Reporter) (stopReason : StopReason) (total : Int) (now : Int) :
    Option (Reporter × Report) :=
  let rep := baseReport r stopReason now
  if 0 < r.details.length then
    let average : ℚ := r.totalLatenciesSec / (r.totalCount : ℚ)
    let rep := { rep with Average := truncate (average * (Second : ℚ)) }
    let rep := { rep with Rps := (r.totalCount : ℚ) / Seconds total }
    let okLats := sortFloat64s (okLats r)
    if h : 0 < okLats.length then
      let fastestNum := okLats.get ⟨0, h⟩
      let slowestNum := okLats.get ⟨okLats.length - 1, by omega⟩
      let rep := { rep with Fastest := toDuration fastestNum }
      let rep := { rep with Slowest := toDuration slowestNum }
      match trackHistogram fuel okLats slowestNum fastestNum with
      | none => none
      | some hist =>
        let rep := { rep with Histogram := hist }
        match latencies okLats with
        | none => none
        | some dist =>
          let rep := { rep with LatencyDistribution := dist }
          some (r, { rep with Details := r.details })
    else
      some (r, { rep with Details := r.details })
  else
    some (r, rep)

/-! ## Derived notions used in the statements -/

/-- The records that `Track` does not skip: all but the first `SkipFirst`. -/
def nonSkipped (skipFirst : Int) (results : List CallResult) : List CallResult :=
  results.drop skipFirst.toNat

/-- The value that `latencies` resolves for rank `p`. -/
def resolved (lats : List ℚ) (p : Int) : ℚ :=
  lats.getD (rankIndex p lats.length).toNat 0

/-- The sorted eligible latencies that `Finalize` hands to the histogram builder
and to the percentile extractor. -/
def eligible (r : Reporter) : List ℚ := sortFloat64s (okLats r)

/-- The report of a run with retained details: the average and the throughput
are filled in and the details attached. -/
def detailReport (r : Reporter) (stopReason : StopReason) (total now : Int) : Report :=
  { baseReport r stopReason now with
    Average := truncate (r.totalLatenciesSec / (r.totalCount : ℚ) * (Second : ℚ))
    Rps := (r.totalCount : ℚ) / Seconds total
    Details := r.details }

/-- The report of a run with eligible samples, given the histogram. -/
def fullReport (r : Reporter) (stopReason : StopReason) (total now : Int)
    (hist : List Bucket) : Report :=
  { detailReport r stopReason total now with
    Fastest := toDuration ((eligible r).getD 0 0)
    Slowest := toDuration ((eligible r).getD ((eligible r).length - 1) 0)
    Histogram := hist
    LatencyDistribution := pctls.map (fun p => pctlEntry p (resolved (eligible r) p)) }

/-- The median of an ascending list in the usual sense: the middle element, or the
mean of the two middle elements when the length is even. -/
def median (xs : List ℚ) : ℚ :=
  if xs.length % 2 = 1 then xs.getD (xs.length / 2) 0
  else (xs.getD (xs.length / 2 - 1) 0 + xs.getD (xs.length / 2) 0) / 2

/-- The index of rank `p` over `n` samples as the specification words it:
`floor(p * n / 100)`, less one when `p * n / 100` is a whole number, clamped at
zero. -/
def specIndex (p : Int) (n : Nat) : Int :=
  let q : Int := (p * (n : Int)) / 100
  let di : Int := if (p * (n : Int)) % 100 = 0 then q - 1 else q
  if di < 0 then 0 else di

/-- The run of the specification scenario: 100 records with status "OK" and
durations 10 ms, 11 ms, ..., 109 ms, in arrival order. -/
def scenario : List CallResult :=
  (List.range 100).map
    (fun i => { Err := none, Status := "OK", Duration := (10 + (i : Int)) * 1000000,
                Timestamp := (i : Int) })

/-- The first boundary that a sample does not exceed: the least index `j` with
`x ≤ marks[j]` (the number of marks when there is none). -/
def firstNotExceeded : List ℚ → ℚ → Nat
  | [], _ => 0
  | m :: ms, x => if x ≤ m then 0 else firstNotExceeded ms x + 1

/-! ## Lemmas on rounding to `float64` -/

theorem roundHalfEven_error (s : ℚ) : |((roundHalfEven s : Int) : ℚ) - s| ≤ 1 / 2 := by
  have h1 := Int.floor_le s
  have h2 := Int.lt_floor_add_one s
  unfold roundHalfEven
  simp only []
  split
  · rename_i h
    rw [abs_le]; constructor <;> linarith
  · split
    · rename_i h
      push_cast
      rw [abs_le]; constructor <;> linarith
    · rename_i ha hb
      split
      · rw [abs_le]; constructor <;> linarith
      · push_cast
        rw [abs_le]; constructor <;> linarith

theorem bitLengthAux_spec (fuel : Nat) :
    ∀ m, m ≤ fuel → m < 2 ^ bitLengthAux fuel m ∧ (m ≠ 0 → 2 ^ bitLengthAux fuel m ≤ 2 * m) := by
  induction fuel with
  | zero =>
    intro m hm
    have : m = 0 := by omega
    subst this
    simp [bitLengthAux]
  | succ fuel ih =>
    intro m hm
    unfold bitLengthAux
    by_cases h0 : m = 0
    · simp [h0]
    · simp only [h0, if_false]
      obtain ⟨h1, h2⟩ := ih (m / 2) (by omega)
      rw [pow_succ]
      constructor
      · omega
      · intro _
        by_cases h3 : m / 2 = 0
        · have hm1 : m = 1 := by omega
          subst hm1
          have : bitLengthAux fuel (1 / 2) = 0 := by
            cases fuel <;> simp [bitLengthAux]
          rw [this]; norm_num
        · have := h2 h3
          omega

theorem bitLength_spec (n : Nat) (hn : n ≠ 0) :
    n < 2 ^ bitLength n ∧ 2 ^ bitLength n ≤ 2 * n :=
  ⟨(bitLengthAux_spec n n (le_refl n)).1, (bitLengthAux_spec n n (le_refl n)).2 hn⟩

theorem two_zpow_binaryExponent_le (x : ℚ) (hx : 0 < x) :
    (2 : ℚ) ^ (binaryExponent x) ≤ x := by
  unfold binaryExponent
  simp only []
  split
  · rename_i h; exact h
  · have hnum : 0 < x.num := Rat.num_pos.mpr hx
    have ha : x.num.natAbs ≠ 0 := by omega
    have h1 : 2 ^ bitLength x.num.natAbs ≤ 2 * x.num.natAbs := (bitLength_spec _ ha).2
    have h2 : x.den < 2 ^ bitLength x.den := (bitLength_spec _ x.den_nz).1
    have h1q : (2 : ℚ) ^ bitLength x.num.natAbs ≤ 2 * (x.num.natAbs : ℚ) := by
      exact_mod_cast h1
    have h2q : (x.den : ℚ) ≤ (2 : ℚ) ^ bitLength x.den := by exact_mod_cast le_of_lt h2
    have hden : (0 : ℚ) < (x.den : ℚ) := by exact_mod_cast x.den_pos
    have hxe : x = (x.num.natAbs : ℚ) / (x.den : ℚ) := by
      have : ((x.num.natAbs : Int) : ℚ) = (x.num : ℚ) := by
        rw [Int.natAbs_of_nonneg (le_of_lt hnum)]
      rw [← Int.cast_natCast, this]
      exact (Rat.num_div_den x).symm
    have hpow : (2 : ℚ) ^ (((bitLength x.num.natAbs : Nat) : Int) -
        ((bitLength x.den : Nat) : Int) - 1) =
        ((2 : ℚ) ^ bitLength x.num.natAbs / 2) / (2 : ℚ) ^ bitLength x.den := by
      rw [zpow_sub₀ (by norm_num : (2 : ℚ) ≠ 0), zpow_sub₀ (by norm_num : (2 : ℚ) ≠ 0),
        zpow_natCast, zpow_natCast, zpow_one]
      field_simp
      ring
    rw [hpow]
    conv_rhs => rw [hxe]
    exact div_le_div₀ (by positivity) (by linarith) hden h2q

/-- The relative error of rounding a non-negative rational to `float64` is at most
`2^-53`. -/
theorem roundFloat64_error (x : ℚ) (hx : 0 ≤ x) :
    |roundFloat64 x - x| ≤ x / 2 ^ 53 := by
  rcases eq_or_lt_of_le hx with h0 | hpos
  · subst h0; simp [roundFloat64]
  · have hne : x ≠ 0 := ne_of_gt hpos
    have habs : |x| = x := abs_of_pos hpos
    have hnl : ¬ x < 0 := not_lt.mpr hx
    unfold roundFloat64
    simp only [hne, if_false, habs, hnl, one_mul]
    have hA := two_zpow_binaryExponent_le x hpos
    generalize binaryExponent x = e' at hA
    have hp : (0 : ℚ) < (2 : ℚ) ^ (e' - 52) := by positivity
    have hB := roundHalfEven_error (x / (2 : ℚ) ^ (e' - 52))
    generalize roundHalfEven (x / (2 : ℚ) ^ (e' - 52)) = m at hB
    have hsplit : (2 : ℚ) ^ e' = (2 : ℚ) ^ (e' - 52) * 2 ^ 52 := by
      rw [zpow_sub₀ (by norm_num : (2 : ℚ) ≠ 0)]
      have : (2 : ℚ) ^ (52 : Int) = 2 ^ 52 := by norm_cast
      rw [this]; field_simp
    have hfact : (m : ℚ) * (2 : ℚ) ^ (e' - 52) - x =
        ((m : ℚ) - x / (2 : ℚ) ^ (e' - 52)) * (2 : ℚ) ^ (e' - 52) := by
      field_simp
    rw [hfact, abs_mul, abs_of_pos hp]
    have h1 : |(m : ℚ) - x / (2 : ℚ) ^ (e' - 52)| * (2 : ℚ) ^ (e' - 52) ≤
        1 / 2 * (2 : ℚ) ^ (e' - 52) := by gcongr
    have h2 : 1 / 2 * (2 : ℚ) ^ (e' - 52) ≤ x / 2 ^ 53 := by
      rw [le_div_iff₀ (by positivity)]
      rw [hsplit] at hA
      linarith
    linarith

theorem roundFloat64_zero : roundFloat64 0 = 0 := by simp [roundFloat64]

theorem two_zpow_lt_iff (a b : Int) : (2 : ℚ) ^ a < (2 : ℚ) ^ b ↔ a < b :=
  zpow_lt_zpow_iff_right₀ (by norm_num : (1 : ℚ) < 2)

theorem two_zpow_le_iff (a b : Int) : (2 : ℚ) ^ a ≤ (2 : ℚ) ^ b ↔ a ≤ b :=
  zpow_le_zpow_iff_right₀ (by norm_num : (1 : ℚ) < 2)

theorem lt_two_zpow_binaryExponent (x : ℚ) (hx : 0 < x) :
    x < (2 : ℚ) ^ (binaryExponent x + 1) := by
  have hnum : 0 < x.num := Rat.num_pos.mpr hx
  have ha : x.num.natAbs ≠ 0 := by omega
  have h1 : x.num.natAbs < 2 ^ bitLength x.num.natAbs := (bitLength_spec _ ha).1
  have h2 : 2 ^ bitLength x.den ≤ 2 * x.den := (bitLength_spec _ x.den_nz).2
  have h1q : (x.num.natAbs : ℚ) < (2 : ℚ) ^ bitLength x.num.natAbs := by exact_mod_cast h1
  have h2q : (2 : ℚ) ^ bitLength x.den ≤ 2 * (x.den : ℚ) := by exact_mod_cast h2
  have hden : (0 : ℚ) < (x.den : ℚ) := by exact_mod_cast x.den_pos
  have hxe : x = (x.num.natAbs : ℚ) / (x.den : ℚ) := by
    have : ((x.num.natAbs : Int) : ℚ) = (x.num : ℚ) := by
      rw [Int.natAbs_of_nonneg (le_of_lt hnum)]
    rw [← Int.cast_natCast, this]
    exact (Rat.num_div_den x).symm
  have hk : x < (2 : ℚ) ^ (((bitLength x.num.natAbs : Nat) : Int) -
      ((bitLength x.den : Nat) : Int) + 1) := by
    have hpow : (2 : ℚ) ^ (((bitLength x.num.natAbs : Nat) : Int) -
        ((bitLength x.den : Nat) : Int) + 1) =
        ((2 : ℚ) ^ bitLength x.num.natAbs * 2) / (2 : ℚ) ^ bitLength x.den := by
      rw [zpow_add₀ (by norm_num : (2 : ℚ) ≠ 0), zpow_sub₀ (by norm_num : (2 : ℚ) ≠ 0),
        zpow_natCast, zpow_natCast, zpow_one]
      field_simp
    rw [hpow]
    conv_lhs => rw [hxe]
    rw [div_lt_div_iff₀ hden (by positivity)]
    have hp : (0 : ℚ) < (2 : ℚ) ^ bitLength x.num.natAbs := by positivity
    nlinarith
  unfold binaryExponent
  simp only []
  split
  · exact hk
  · rename_i h
    rw [sub_add_cancel]
    exact not_le.mp h

theorem binaryExponent_unique (x : ℚ) (hx : 0 < x) (e : Int) (h1 : (2 : ℚ) ^ e ≤ x)
    (h2 : x < (2 : ℚ) ^ (e + 1)) : binaryExponent x = e := by
  have a1 := two_zpow_binaryExponent_le x hx
  have a2 := lt_two_zpow_binaryExponent x hx
  have b1 : e < binaryExponent x + 1 := (two_zpow_lt_iff _ _).mp (lt_of_le_of_lt h1 a2)
  have b2 : binaryExponent x < e + 1 := (two_zpow_lt_iff _ _).mp (lt_of_le_of_lt a1 h2)
  omega

theorem roundHalfEven_mono (s t : ℚ) (h : s ≤ t) : roundHalfEven s ≤ roundHalfEven t := by
  by_contra hc
  push_neg at hc
  have hs := roundHalfEven_error s
  have ht := roundHalfEven_error t
  rw [abs_le] at hs ht
  have h1 : (roundHalfEven t : ℚ) + 1 ≤ (roundHalfEven s : ℚ) := by exact_mod_cast hc
  have hst : s = t := by linarith
  subst hst
  exact absurd hc (lt_irrefl _)

theorem roundHalfEven_intCast (n : Int) : roundHalfEven (n : ℚ) = n := by
  unfold roundHalfEven
  simp

theorem roundHalfEven_nonneg (s : ℚ) (hs : 0 ≤ s) : 0 ≤ roundHalfEven s := by
  have := roundHalfEven_mono 0 s hs
  have h0 : roundHalfEven (0 : ℚ) = 0 := by
    have := roundHalfEven_intCast 0
    simpa using this
  omega

/-- Shape of the rounding of a positive rational: significand between `2^52` and
`2^53` at the exponent of the argument. -/
theorem roundFloat64_pos_eq (x : ℚ) (hx : 0 < x) :
    roundFloat64 x =
      (roundHalfEven (x / (2 : ℚ) ^ (binaryExponent x - 52)) : ℚ) *
        (2 : ℚ) ^ (binaryExponent x - 52) ∧
    (2 : ℚ) ^ (52 : Nat) ≤ x / (2 : ℚ) ^ (binaryExponent x - 52) ∧
    x / (2 : ℚ) ^ (binaryExponent x - 52) < (2 : ℚ) ^ (53 : Nat) := by
  have hne : x ≠ 0 := ne_of_gt hx
  have habs : |x| = x := abs_of_pos hx
  have hnl : ¬ x < 0 := not_lt.mpr (le_of_lt hx)
  have hp : (0 : ℚ) < (2 : ℚ) ^ (binaryExponent x - 52) := by positivity
  have a1 := two_zpow_binaryExponent_le x hx
  have a2 := lt_two_zpow_binaryExponent x hx
  have e1 : (2 : ℚ) ^ binaryExponent x =
      (2 : ℚ) ^ (52 : Nat) * (2 : ℚ) ^ (binaryExponent x - 52) := by
    rw [← zpow_natCast, ← zpow_add₀ (by norm_num : (2 : ℚ) ≠ 0)]
    congr 1; push_cast; ring
  have e2 : (2 : ℚ) ^ (binaryExponent x + 1) =
      (2 : ℚ) ^ (53 : Nat) * (2 : ℚ) ^ (binaryExponent x - 52) := by
    rw [← zpow_natCast, ← zpow_add₀ (by norm_num : (2 : ℚ) ≠ 0)]
    congr 1; push_cast; ring
  refine ⟨?_, ?_, ?_⟩
  · unfold roundFloat64
    simp only [hne, if_false, habs, hnl, one_mul]
  · rw [le_div_iff₀ hp, ← e1]; exact a1
  · rw [div_lt_iff₀ hp, ← e2]; exact a2

theorem roundFloat64_nonneg (x : ℚ) (hx : 0 ≤ x) : 0 ≤ roundFloat64 x := by
  rcases eq_or_lt_of_le hx with h0 | hpos
  · rw [← h0, roundFloat64_zero]
  · obtain ⟨he, h1, _⟩ := roundFloat64_pos_eq x hpos
    rw [he]
    have : (0 : ℚ) ≤ (roundHalfEven (x / (2 : ℚ) ^ (binaryExponent x - 52)) : ℚ) := by
      exact_mod_cast roundHalfEven_nonneg _ (le_trans (by positivity) h1)
    positivity

theorem roundFloat64_neg (x : ℚ) : roundFloat64 (-x) = -roundFloat64 x := by
  rcases lt_trichotomy x 0 with h | h | h
  · have h1 : ¬ (-x < 0) := by linarith
    unfold roundFloat64
    simp [ne_of_lt h, h, h1]
  · subst h; simp [roundFloat64_zero]
  · have h1 : -x < 0 := by linarith
    have h2 : ¬ x < 0 := by linarith
    unfold roundFloat64
    simp [ne_of_gt h, h1, h2]

/-- Bounds of the rounding of a positive rational by the powers of two around it. -/
theorem roundFloat64_pos_bounds (x : ℚ) (hx : 0 < x) :
    (2 : ℚ) ^ binaryExponent x ≤ roundFloat64 x ∧
    roundFloat64 x ≤ (2 : ℚ) ^ (binaryExponent x + 1) := by
  obtain ⟨he, h1, h2⟩ := roundFloat64_pos_eq x hx
  have hp : (0 : ℚ) < (2 : ℚ) ^ (binaryExponent x - 52) := by positivity
  have e1 : (2 : ℚ) ^ binaryExponent x =
      (2 : ℚ) ^ (52 : Nat) * (2 : ℚ) ^ (binaryExponent x - 52) := by
    rw [← zpow_natCast, ← zpow_add₀ (by norm_num : (2 : ℚ) ≠ 0)]
    congr 1; push_cast; ring
  have e2 : (2 : ℚ) ^ (binaryExponent x + 1) =
      (2 : ℚ) ^ (53 : Nat) * (2 : ℚ) ^ (binaryExponent x - 52) := by
    rw [← zpow_natCast, ← zpow_add₀ (by norm_num : (2 : ℚ) ≠ 0)]
    congr 1; push_cast; ring
  have m1 : ((2 ^ 52 : Int) : ℚ) ≤
      (roundHalfEven (x / (2 : ℚ) ^ (binaryExponent x - 52)) : ℚ) := by
    have := roundHalfEven_mono _ _ (show (((2 ^ 52 : Int) : ℚ)) ≤ _ by push_cast; exact h1)
    rw [roundHalfEven_intCast] at this
    exact_mod_cast this
  have m2 : (roundHalfEven (x / (2 : ℚ) ^ (binaryExponent x - 52)) : ℚ) ≤
      ((2 ^ 53 : Int) : ℚ) := by
    have := roundHalfEven_mono _ _ (show _ ≤ (((2 ^ 53 : Int) : ℚ)) by
      push_cast; exact le_of_lt h2)
    rw [roundHalfEven_intCast] at this
    exact_mod_cast this
  rw [he, e1, e2]
  push_cast at m1 m2
  constructor
  · exact mul_le_mul_of_nonneg_right m1 (le_of_lt hp)
  · exact mul_le_mul_of_nonneg_right m2 (le_of_lt hp)

theorem roundFloat64_mono_pos (x y : ℚ) (hx : 0 < x) (hxy : x ≤ y) :
    roundFloat64 x ≤ roundFloat64 y := by
  have hy : 0 < y := lt_of_lt_of_le hx hxy
  have ax := two_zpow_binaryExponent_le x hx
  have by2 := lt_two_zpow_binaryExponent y hy
  have hle : binaryExponent x ≤ binaryExponent y := by
    have : binaryExponent x < binaryExponent y + 1 :=
      (two_zpow_lt_iff _ _).mp (lt_of_le_of_lt (le_trans ax hxy) by2)
    omega
  rcases eq_or_lt_of_le hle with heq | hlt
  · obtain ⟨hex, -, -⟩ := roundFloat64_pos_eq x hx
    obtain ⟨hey, -, -⟩ := roundFloat64_pos_eq y hy
    rw [hex, hey, heq]
    have hp : (0 : ℚ) < (2 : ℚ) ^ (binaryExponent y - 52) := by positivity
    have : roundHalfEven (x / (2 : ℚ) ^ (binaryExponent y - 52)) ≤
        roundHalfEven (y / (2 : ℚ) ^ (binaryExponent y - 52)) :=
      roundHalfEven_mono _ _ (div_le_div_of_nonneg_right hxy (le_of_lt hp))
    have hq : (roundHalfEven (x / (2 : ℚ) ^ (binaryExponent y - 52)) : ℚ) ≤
        (roundHalfEven (y / (2 : ℚ) ^ (binaryExponent y - 52)) : ℚ) := by exact_mod_cast this
    exact mul_le_mul_of_nonneg_right hq (le_of_lt hp)
  · have b1 := (roundFloat64_pos_bounds x hx).2
    have b2 := (roundFloat64_pos_bounds y hy).1
    have : (2 : ℚ) ^ (binaryExponent x + 1) ≤ (2 : ℚ) ^ binaryExponent y :=
      (two_zpow_le_iff _ _).mpr (by omega)
    linarith

/-- Rounding to `float64` is monotone. -/
theorem roundFloat64_mono (x y : ℚ) (hxy : x ≤ y) : roundFloat64 x ≤ roundFloat64 y := by
  rcases lt_trichotomy 0 x with hx | hx | hx
  · exact roundFloat64_mono_pos x y hx hxy
  · subst hx
    rw [roundFloat64_zero]
    exact roundFloat64_nonneg y hxy
  · rcases le_or_lt 0 y with hy | hy
    · have h1 : roundFloat64 x ≤ 0 := by
        have := roundFloat64_nonneg (-x) (by linarith)
        rw [roundFloat64_neg] at this
        linarith
      exact le_trans h1 (roundFloat64_nonneg y hy)
    · have := roundFloat64_mono_pos (-y) (-x) (by linarith) (by linarith)
      rw [roundFloat64_neg, roundFloat64_neg] at this
      linarith

theorem roundFloat64_of_significand (m e : Int) (h1 : 2 ^ 52 ≤ m) (h2 : m ≤ 2 ^ 53) :
    roundFloat64 ((m : ℚ) * (2 : ℚ) ^ e) = (m : ℚ) * (2 : ℚ) ^ e := by
  have hp : (0 : ℚ) < (2 : ℚ) ^ e := by positivity
  have hm1 : ((2 : ℚ) ^ (52 : Nat)) ≤ (m : ℚ) := by exact_mod_cast h1
  have hm2 : (m : ℚ) ≤ ((2 : ℚ) ^ (53 : Nat)) := by exact_mod_cast h2
  have hmpos : (0 : ℚ) < (m : ℚ) := lt_of_lt_of_le (by positivity) hm1
  have hy : (0 : ℚ) < (m : ℚ) * (2 : ℚ) ^ e := by positivity
  have e52 : (2 : ℚ) ^ (e + 52) = (2 : ℚ) ^ (52 : Nat) * (2 : ℚ) ^ e := by
    rw [← zpow_natCast, ← zpow_add₀ (by norm_num : (2 : ℚ) ≠ 0)]
    congr 1; push_cast; ring
  have e53 : (2 : ℚ) ^ (e + 53) = (2 : ℚ) ^ (53 : Nat) * (2 : ℚ) ^ e := by
    rw [← zpow_natCast, ← zpow_add₀ (by norm_num : (2 : ℚ) ≠ 0)]
    congr 1; push_cast; ring
  rcases lt_or_eq_of_le h2 with hlt | heq
  · have hm3 : (m : ℚ) < ((2 : ℚ) ^ (53 : Nat)) := by exact_mod_cast hlt
    have hbe : binaryExponent ((m : ℚ) * (2 : ℚ) ^ e) = e + 52 := by
      apply binaryExponent_unique _ hy
      · rw [e52]; exact mul_le_mul_of_nonneg_right hm1 (le_of_lt hp)
      · rw [show e + 52 + 1 = e + 53 by ring, e53]
        exact mul_lt_mul_of_pos_right hm3 hp
    obtain ⟨he, -, -⟩ := roundFloat64_pos_eq _ hy
    rw [he, hbe, show e + 52 - 52 = e by ring, mul_div_assoc, div_self (ne_of_gt hp), mul_one,
      roundHalfEven_intCast]
  · have hbe : binaryExponent ((m : ℚ) * (2 : ℚ) ^ e) = e + 53 := by
      apply binaryExponent_unique _ hy
      · rw [e53, heq]; push_cast; exact le_refl _
      · rw [show e + 53 + 1 = (e + 53) + 1 by ring, zpow_add₀ (by norm_num : (2 : ℚ) ≠ 0),
          e53, heq]
        push_cast
        have : (0 : ℚ) < (2 : ℚ) ^ (53 : Nat) * (2 : ℚ) ^ e := by positivity
        linarith
    obtain ⟨he, -, -⟩ := roundFloat64_pos_eq _ hy
    have e1 : (2 : ℚ) ^ (e + 53 - 52) = 2 * (2 : ℚ) ^ e := by
      rw [show e + 53 - 52 = e + 1 by ring, zpow_add₀ (by norm_num : (2 : ℚ) ≠ 0), zpow_one]
      ring
    have hs : (m : ℚ) * (2 : ℚ) ^ e / (2 * (2 : ℚ) ^ e) = (((2 ^ 52 : Int)) : ℚ) := by
      rw [heq]; push_cast
      field_simp
      ring
    rw [he, hbe, e1, hs, roundHalfEven_intCast, heq]
    push_cast
    ring

/-- Rounding to `float64` is idempotent: a rounded value is a `float64`. -/
theorem roundFloat64_idem (x : ℚ) : roundFloat64 (roundFloat64 x) = roundFloat64 x := by
  have hposcase : ∀ y : ℚ, 0 < y → roundFloat64 (roundFloat64 y) = roundFloat64 y := by
    intro y hy
    obtain ⟨he, h1, h2⟩ := roundFloat64_pos_eq y hy
    have m1 : (2 ^ 52 : Int) ≤ roundHalfEven (y / (2 : ℚ) ^ (binaryExponent y - 52)) := by
      have := roundHalfEven_mono _ _ (show (((2 ^ 52 : Int) : ℚ)) ≤ _ by push_cast; exact h1)
      rwa [roundHalfEven_intCast] at this
    have m2 : roundHalfEven (y / (2 : ℚ) ^ (binaryExponent y - 52)) ≤ (2 ^ 53 : Int) := by
      have := roundHalfEven_mono _ _ (show _ ≤ (((2 ^ 53 : Int) : ℚ)) by
        push_cast; exact le_of_lt h2)
      rwa [roundHalfEven_intCast] at this
    rw [he]
    exact roundFloat64_of_significand _ _ m1 m2
  rcases lt_trichotomy 0 x with hx | hx | hx
  · exact hposcase x hx
  · subst hx; simp [roundFloat64_zero]
  · have := hposcase (-x) (by linarith)
    rw [roundFloat64_neg, roundFloat64_neg] at this
    linarith

theorem roundFloat64_le_mul (z : ℚ) (hz : 0 ≤ z) : roundFloat64 z ≤ z * (101 / 100) := by
  have h := roundFloat64_error z hz
  rw [abs_le] at h
  have : z / 2 ^ 53 ≤ z / 100 := by
    apply div_le_div_of_nonneg_left hz (by norm_num) (by norm_num)
  linarith

/-! ## Lemmas on maps -/

theorem Dist.total_incr (d : Dist) (k : String) : (d.incr k).total = d.total + 1 := by
  induction d with
  | nil => simp [Dist.incr, Dist.total]
  | cons hd t ih =>
    obtain ⟨k', v⟩ := hd
    unfold Dist.incr
    by_cases h : k' = k
    · simp [h, Dist.total]; ring
    · simp only [h, if_false]
      simp only [Dist.total, List.map_cons, List.sum_cons] at ih ⊢
      rw [ih]; ring

theorem Dist.get_incr (d : Dist) (k k2 : String) :
    (d.incr k).get k2 = d.get k2 + (if k = k2 then 1 else 0) := by
  induction d with
  | nil => simp [Dist.incr, Dist.get]
  | cons hd t ih =>
    obtain ⟨k', v⟩ := hd
    unfold Dist.incr
    by_cases h : k' = k
    · subst h
      by_cases h2 : k' = k2 <;> simp [Dist.get, h2]
    · simp only [h, if_false]
      by_cases h2 : k' = k2
      · subst h2
        simp [Dist.get, Ne.symm h]
      · simp [Dist.get, h2, ih]

/-! ## Lemmas on the collector -/

theorem record_config (r : Reporter) (res : CallResult) : (record r res).config = r.config := by
  unfold record
  cases res.Err <;> simp only [] <;> split <;> rfl

theorem record_totalCount (r : Reporter) (res : CallResult) :
    (record r res).totalCount = r.totalCount + 1 := by
  unfold record
  cases res.Err <;> simp only [] <;> split <;> rfl

theorem record_totalLatenciesSec (r : Reporter) (res : CallResult) :
    (record r res).totalLatenciesSec = r.totalLatenciesSec + Seconds res.Duration := by
  unfold record
  cases res.Err <;> simp only [] <;> split <;> rfl

theorem record_statusCodeDist (r : Reporter) (res : CallResult) :
    (record r res).statusCodeDist = r.statusCodeDist.incr res.Status := by
  unfold record
  cases res.Err <;> simp only [] <;> split <;> rfl

theorem record_errorDist (r : Reporter) (res : CallResult) :
    (record r res).errorDist =
      match res.Err with
      | some s => r.errorDist.incr s
      | none => r.errorDist := by
  unfold record
  cases res.Err <;> simp only [] <;> split <;> rfl

theorem record_details (r : Reporter) (res : CallResult) :
    (record r res).details =
      if r.details.length < maxResult then r.details ++ [toDetail res] else r.details := by
  unfold record
  cases res.Err <;> simp only [] <;> split <;> rfl

theorem record_start (r : Reporter) (res : CallResult) : (record r res).start = r.start := by
  unfold record
  cases res.Err <;> simp only [] <;> split <;> rfl

theorem record_stopReason (r : Reporter) (res : CallResult) :
    (record r res).stopReason = r.stopReason := by
  unfold record
  cases res.Err <;> simp only [] <;> split <;> rfl

theorem foldl_record_config (xs : List CallResult) (r : Reporter) :
    (xs.foldl record r).config = r.config := by
  induction xs generalizing r with
  | nil => rfl
  | cons x t ih => simp [List.foldl_cons, ih, record_config]

/-- The loop of `Track` skips the records still owed to `SkipFirst` and applies
`record` to all the others. -/
theorem trackLoop_eq (results : List CallResult) (skipCount : Int) (r : Reporter) :
    (trackLoop skipCount r results).2 =
      (results.drop (r.config.SkipFirst - skipCount).toNat).foldl record r := by
  induction results generalizing skipCount r with
  | nil => simp [trackLoop]
  | cons x t ih =>
    have step : trackLoop skipCount r (x :: t) =
        trackLoop (trackStep (skipCount, r) x).1 (trackStep (skipCount, r) x).2 t := by
      simp [trackLoop]
    rw [step]
    by_cases h : skipCount < r.config.SkipFirst
    · have hs : trackStep (skipCount, r) x = (skipCount + 1, r) := by simp [trackStep, h]
      rw [hs, ih]
      have : (r.config.SkipFirst - skipCount).toNat =
          (r.config.SkipFirst - (skipCount + 1)).toNat + 1 := by omega
      simp only [this, List.drop_succ_cons]
    · have hs : trackStep (skipCount, r) x = (skipCount, record r x) := by simp [trackStep, h]
      rw [hs, ih, record_config]
      have : (r.config.SkipFirst - skipCount).toNat = 0 := by omega
      simp [this]

theorem Track_eq (name : String) (skipFirst : Int) (cel : Bool) (results : List CallResult) :
    Track (NewReporter name skipFirst cel) results =
      (nonSkipped skipFirst results).foldl record (NewReporter name skipFirst cel) := by
  unfold Track nonSkipped
  rw [trackLoop_eq]
  simp [NewReporter]

theorem foldl_record_totalCount (xs : List CallResult) (r : Reporter) :
    (xs.foldl record r).totalCount = r.totalCount + xs.length := by
  induction xs generalizing r with
  | nil => simp
  | cons x t ih => simp [List.foldl_cons, ih, record_totalCount]; omega

theorem foldl_record_details (xs : List CallResult) (r : Reporter) :
    (xs.foldl record r).details =
      r.details ++ (xs.take (maxResult - r.details.length)).map toDetail := by
  induction xs generalizing r with
  | nil => simp
  | cons x t ih =>
    rw [List.foldl_cons, ih, record_details]
    by_cases h : r.details.length < maxResult
    · have h2 : maxResult - r.details.length = (maxResult - (r.details.length + 1)) + 1 := by omega
      simp [h, h2]
    · have h2 : maxResult - r.details.length = 0 := by omega
      simp [h, h2]

theorem foldl_record_statusCodeDist_total (xs : List CallResult) (r : Reporter) :
    (xs.foldl record r).statusCodeDist.total = r.statusCodeDist.total + xs.length := by
  induction xs generalizing r with
  | nil => simp
  | cons x t ih =>
    rw [List.foldl_cons, ih, record_statusCodeDist, Dist.total_incr]
    push_cast [List.length_cons]; ring

theorem foldl_record_statusCodeDist_get (xs : List CallResult) (r : Reporter) (s : String) :
    (xs.foldl record r).statusCodeDist.get s =
      r.statusCodeDist.get s + (xs.countP (fun res => res.Status = s) : Nat) := by
  induction xs generalizing r with
  | nil => simp
  | cons x t ih =>
    rw [List.foldl_cons, ih, record_statusCodeDist, Dist.get_incr, List.countP_cons]
    by_cases h : x.Status = s
    · simp [h]; ring
    · simp [h]

theorem foldl_record_errorDist_get (xs : List CallResult) (r : Reporter) (m : String) :
    (xs.foldl record r).errorDist.get m =
      r.errorDist.get m + (xs.countP (fun res => res.Err = some m) : Nat) := by
  induction xs generalizing r with
  | nil => simp
  | cons x t ih =>
    rw [List.foldl_cons, ih, record_errorDist, List.countP_cons]
    cases hx : x.Err with
    | none => simp
    | some e =>
      simp only [Dist.get_incr]
      by_cases h : e = m
      · simp [h]; ring
      · simp [h]

/-! ## Lemmas on the histogram builder -/

theorem bump_length (counts : List Int) (bi : Nat) : (bump counts bi).length = counts.length := by
  simp [bump]

theorem bump_sum (counts : List Int) (bi : Nat) (h : bi < counts.length) :
    (bump counts bi).sum = counts.sum + 1 := by
  induction counts generalizing bi with
  | nil => simp at h
  | cons c t ih =>
    cases bi with
    | zero => simp [bump]; ring
    | succ n =>
      have hn : n < t.length := by simpa using h
      have := ih n hn
      simp only [bump, List.getD_cons_succ, List.set_cons_succ, List.sum_cons] at this ⊢
      rw [this]; ring

theorem bucketMarks_length (slowest fastest : ℚ) : (bucketMarks slowest fastest).length = 11 := by
  simp [bucketMarks]

theorem bucketMarks_last (slowest fastest : ℚ) :
    (bucketMarks slowest fastest).getD 10 0 = slowest := by
  simp [bucketMarks, List.getD_eq_getElem?_getD, List.getElem?_append_right]

/-- When the loop returns, every sample from the cursor on has been counted once. -/
theorem histLoop_sum (latencies buckets : List ℚ) (fuel : Nat) :
    ∀ (i bi : Nat) (counts : List Int) (max : Int) (res : List Int × Int),
      bi < counts.length → buckets.length ≤ counts.length →
      histLoop latencies buckets fuel i bi counts max = some res →
      res.1.sum = counts.sum + ((latencies.length - i : Nat) : Int) ∧
        res.1.length = counts.length := by
  induction fuel with
  | zero =>
    intro i bi counts max res _ _ h
    unfold histLoop at h
    split at h
    · simp at h
    · have hi : latencies.length - i = 0 := by omega
      simp only [Option.some.injEq] at h
      subst h
      simp [hi]
  | succ fuel ih =>
    intro i bi counts max res hbi hlen h
    unfold histLoop at h
    split at h
    · rename_i hi
      split at h
      · have := ih _ _ _ _ _ (by rw [bump_length]; exact hbi)
          (by rw [bump_length]; exact hlen) h
        rw [bump_sum _ _ hbi, bump_length] at this
        refine ⟨?_, this.2⟩
        rw [this.1]
        have : latencies.length - i = (latencies.length - (i + 1)) + 1 := by omega
        rw [this]; push_cast; ring
      · split at h
        · rename_i hb
          exact ih _ _ _ _ _ (by omega) hlen h
        · exact ih _ _ _ _ _ hbi hlen h
    · have hi : latencies.length - i = 0 := by omega
      simp only [Option.some.injEq] at h
      subst h
      simp [hi]

/-- The loop returns within `(len - i) + (last - bi)` executions of its body when
no sample from the cursor on exceeds the last boundary. -/
theorem histLoop_isSome (latencies buckets : List ℚ) (fuel : Nat) :
    ∀ (i bi : Nat) (counts : List Int) (max : Int),
      bi ≤ buckets.length - 1 →
      (∀ (j : Nat) (hj : j < latencies.length), i ≤ j →
        latencies[j] ≤ buckets.getD (buckets.length - 1) 0) →
      (latencies.length - i) + (buckets.length - 1 - bi) ≤ fuel →
      (histLoop latencies buckets fuel i bi counts max).isSome = true := by
  induction fuel with
  | zero =>
    intro i bi counts max _ _ hf
    unfold histLoop
    have : ¬ i < latencies.length := by omega
    simp [this]
  | succ fuel ih =>
    intro i bi counts max hbi hle hf
    unfold histLoop
    split
    · rename_i hi
      split
      · exact ih _ _ _ _ hbi (fun j hj hij => hle j hj (by omega)) (by omega)
      · rename_i hgt
        split
        · exact ih _ _ _ _ (by omega) hle (by omega)
        · rename_i hb
          have hbe : bi = buckets.length - 1 := by omega
          exact absurd (hbe ▸ hle i hi (le_refl i)) hgt
    · rfl

theorem map_Count_zipWith (n : Nat) (buckets : List ℚ) (counts : List Int)
    (h : counts.length ≤ buckets.length) :
    (List.zipWith (toBucket n) buckets counts).map (fun b => b.Count) = counts := by
  induction counts generalizing buckets with
  | nil => simp
  | cons c t ih =>
    cases buckets with
    | nil => simp at h
    | cons b bs =>
      simp only [List.zipWith_cons_cons, List.map_cons, List.cons.injEq]
      exact ⟨rfl, ih bs (by simpa using h)⟩

/-- The histogram is returned, and its counts sum to the number of samples, as
soon as no sample exceeds `slowest` and the fuel covers `len + 10` iterations. -/
theorem trackHistogram_sum (latencies : List ℚ) (slowest fastest : ℚ) (fuel : Nat)
    (hle : ∀ (j : Nat) (hj : j < latencies.length), latencies[j] ≤ slowest)
    (hf : latencies.length + 10 ≤ fuel) :
    ∃ hist, trackHistogram fuel latencies slowest fastest = some hist ∧
      (hist.map (fun b => b.Count)).sum = (latencies.length : Int) ∧ hist.length = 11 := by
  have hlen := bucketMarks_length slowest fastest
  have hsome := histLoop_isSome latencies (bucketMarks slowest fastest) fuel 0 0
    (List.replicate (bucketMarks slowest fastest).length 0) 0 (by omega)
    (fun j hj _ => by
      rw [hlen]
      show latencies[j] ≤ (bucketMarks slowest fastest).getD 10 0
      rw [bucketMarks_last]; exact hle j hj)
    (by rw [hlen]; omega)
  obtain ⟨res, hres⟩ := Option.isSome_iff_exists.mp hsome
  have hs := histLoop_sum latencies (bucketMarks slowest fastest) fuel 0 0 _ 0 res
    (by simp [hlen]) (by simp) hres
  unfold trackHistogram
  simp only [hres]
  refine ⟨_, rfl, ?_, ?_⟩
  · rw [map_Count_zipWith _ _ _ (by rw [hs.2]; simp)]
    rw [hs.1]; simp
  · simp [hs.2, hlen]

/-! ## Lemmas on the percentile extractor -/

theorem truncate_of_nonneg (x : ℚ) (hx : 0 ≤ x) : truncate x = ⌊x⌋ := by
  unfold truncate
  rw [Rat.floor_def, Int.tdiv_eq_ediv (Rat.num_nonneg.mpr hx) (by positivity)]

theorem truncate_nonneg (x : ℚ) (hx : 0 ≤ x) : 0 ≤ truncate x := by
  rw [truncate_of_nonneg x hx]
  exact Int.floor_nonneg.mpr hx

/-- The index of rank `p` is the ceiling of `p/100 * n`, less one, clamped at zero. -/
theorem rankIndex_eq_ceil (p : Int) (n : Nat) (hp : 0 ≤ p) :
    rankIndex p n = max 0 (⌈((p : ℚ) / 100) * (n : ℚ)⌉ - 1) := by
  have hip : (0 : ℚ) ≤ ((p : ℚ) / 100) * (n : ℚ) := by
    have : (0 : ℚ) ≤ (p : ℚ) := by exact_mod_cast hp
    positivity
  unfold rankIndex
  simp only []
  rw [truncate_of_nonneg _ hip]
  generalize ((p : ℚ) / 100) * (n : ℚ) = ip at hip
  by_cases h : ip = (⌊ip⌋ : ℚ)
  · have hc : ⌈ip⌉ = ⌊ip⌋ := by
      conv_lhs => rw [h]
      exact Int.ceil_intCast _
    simp only [h.symm, if_true, hc]
    rcases lt_or_le (⌊ip⌋ - 1) 0 with h1 | h1
    · simp [h1, max_eq_left (le_of_lt h1)]
    · simp [not_lt.mpr h1, max_eq_right h1]
  · have hc : ⌈ip⌉ = ⌊ip⌋ + 1 := by
      rw [Int.ceil_eq_iff]
      constructor
      · have := Int.floor_le ip
        push_cast
        rcases lt_or_eq_of_le this with h2 | h2
        · linarith
        · exact absurd h2.symm h
      · push_cast
        exact le_of_lt (Int.lt_floor_add_one ip)
    have hf : 0 ≤ ⌊ip⌋ := Int.floor_nonneg.mpr hip
    simp only [h, if_false, hc, add_sub_cancel_right]
    simp [not_lt.mpr hf, max_eq_right hf]

theorem rankIndex_mono (n : Nat) (p q : Int) (hp : 0 ≤ p) (hpq : p ≤ q) :
    rankIndex p n ≤ rankIndex q n := by
  rw [rankIndex_eq_ceil p n hp, rankIndex_eq_ceil q n (le_trans hp hpq)]
  have hle : ((p : ℚ) / 100) * (n : ℚ) ≤ ((q : ℚ) / 100) * (n : ℚ) := by
    have : (p : ℚ) ≤ (q : ℚ) := by exact_mod_cast hpq
    gcongr
  have := Int.ceil_mono hle
  exact max_le_max (le_refl 0) (by omega)

theorem rankIndex_nonneg (p : Int) (n : Nat) : 0 ≤ rankIndex p n := by
  unfold rankIndex
  simp only []
  split <;> omega

theorem rankIndex_lt (p : Int) (n : Nat) (hp : 0 ≤ p) (hp2 : p ≤ 100) (hn : 0 < n) :
    rankIndex p n < n := by
  rw [rankIndex_eq_ceil p n hp]
  have hle : ((p : ℚ) / 100) * (n : ℚ) ≤ ((n : Int) : ℚ) := by
    have h1 : (p : ℚ) ≤ 100 := by exact_mod_cast hp2
    have h2 : (0 : ℚ) ≤ (n : ℚ) := by positivity
    push_cast
    calc ((p : ℚ) / 100) * (n : ℚ) ≤ (100 / 100) * (n : ℚ) := by gcongr
      _ = (n : ℚ) := by norm_num
  have hc : ⌈((p : ℚ) / 100) * (n : ℚ)⌉ ≤ (n : Int) := Int.ceil_le.mpr hle
  have hn2 : (0 : Int) < n := by exact_mod_cast hn
  rcases le_total 0 (⌈((p : ℚ) / 100) * (n : ℚ)⌉ - 1) with h | h
  · rw [max_eq_right h]; omega
  · rw [max_eq_left h]; exact hn2

theorem mem_pctls_bounds (p : Int) (hp : p ∈ pctls) : 0 ≤ p ∧ p ≤ 100 := by
  simp only [pctls, List.mem_cons, List.mem_singleton, List.not_mem_nil, or_false] at hp
  omega

theorem mapM_eq_some_map (f : Int → Option ℚ) (g : Int → ℚ) (ps : List Int)
    (h : ∀ p ∈ ps, f p = some (g p)) : ps.mapM f = some (ps.map g) := by
  induction ps with
  | nil => rfl
  | cons a t ih =>
    have ha := h a (List.mem_cons_self a t)
    have ht := ih (fun p hp => h p (List.mem_cons_of_mem a hp))
    rw [List.mapM_cons, ha, ht]
    rfl

/-- On a non-empty list every lookup of `latencies` is in range, and the table
has one entry for each of the seven ranks, in rank order. -/
theorem latencies_eq (lats : List ℚ) (hne : lats ≠ []) :
    latencies lats = some (pctls.map (fun p => pctlEntry p (resolved lats p))) := by
  have hn : 0 < lats.length := List.length_pos.mpr hne
  have hm : pctls.mapM (fun p => lats[(rankIndex p lats.length).toNat]?) =
      some (pctls.map (resolved lats)) := by
    apply mapM_eq_some_map
    intro p hp
    obtain ⟨h0, h1⟩ := mem_pctls_bounds p hp
    have hlt := rankIndex_lt p lats.length h0 h1 hn
    have hnn := rankIndex_nonneg p lats.length
    have hi : (rankIndex p lats.length).toNat < lats.length := by omega
    simp [resolved, List.getD_eq_getElem?_getD, List.getElem?_eq_getElem hi]
  unfold latencies
  rw [hm]
  simp [pctls]

theorem resolved_mono (lats : List ℚ) (hs : lats.Sorted (· ≤ ·)) (hne : lats ≠ [])
    (p q : Int) (hp : 0 ≤ p) (hpq : p ≤ q) (hq : q ≤ 100) :
    resolved lats p ≤ resolved lats q := by
  have hn : 0 < lats.length := List.length_pos.mpr hne
  have h1 := rankIndex_lt p lats.length hp (le_trans hpq hq) hn
  have h2 := rankIndex_lt q lats.length (le_trans hp hpq) hq hn
  have h3 := rankIndex_mono lats.length p q hp hpq
  have h4 := rankIndex_nonneg p lats.length
  have hi : (rankIndex p lats.length).toNat < lats.length := by omega
  have hj : (rankIndex q lats.length).toNat < lats.length := by omega
  have hij : (rankIndex p lats.length).toNat ≤ (rankIndex q lats.length).toNat := by omega
  have := hs.rel_get_of_le (a := ⟨_, hi⟩) (b := ⟨_, hj⟩) hij
  simpa [resolved, List.getD_eq_getElem?_getD, List.getElem?_eq_getElem hi,
    List.getElem?_eq_getElem hj] using this

theorem toInt64_of_range (x : ℚ) (h0 : 0 ≤ x) (h1 : x < 9223372036854775808) :
    toInt64 x = ⌊x⌋ := by
  have hf0 : (0 : Int) ≤ ⌊x⌋ := Int.floor_nonneg.mpr h0
  have hf1 : ⌊x⌋ < 9223372036854775808 := by
    rw [Int.floor_lt]; exact_mod_cast h1
  unfold toInt64
  simp only [truncate_of_nonneg x h0]
  rw [if_pos ⟨by omega, hf1⟩]

/-- Within the `int64` range the conversion of a positive number of seconds to a
duration is non-negative and monotone. -/
theorem toDuration_mono_in_range (d e : ℚ) (hd : 0 ≤ d) (hde : d ≤ e)
    (hr : roundFloat64 (e * (Second : ℚ)) < 9223372036854775808) :
    0 ≤ toDuration d ∧ toDuration d ≤ toDuration e := by
  have hsec : (0 : ℚ) < (Second : ℚ) := by norm_num [Second]
  have he : 0 ≤ e := le_trans hd hde
  have hm : roundFloat64 (d * (Second : ℚ)) ≤ roundFloat64 (e * (Second : ℚ)) :=
    roundFloat64_mono _ _ (by gcongr)
  have hd0 : 0 ≤ roundFloat64 (d * (Second : ℚ)) := roundFloat64_nonneg _ (by positivity)
  have he0 : 0 ≤ roundFloat64 (e * (Second : ℚ)) := roundFloat64_nonneg _ (by positivity)
  unfold toDuration
  rw [toInt64_of_range _ hd0 (lt_of_le_of_lt hm hr), toInt64_of_range _ he0 hr]
  exact ⟨Int.floor_nonneg.mpr hd0, Int.floor_mono hm⟩

theorem pctlEntry_Latency_mono (p q : Int) (d e : ℚ) (hde : d ≤ e)
    (hr : roundFloat64 (e * (Second : ℚ)) < 9223372036854775808) :
    (pctlEntry p d).Latency ≤ (pctlEntry q e).Latency := by
  unfold pctlEntry
  by_cases hd : d > 0
  · have he : e > 0 := lt_of_lt_of_le hd hde
    simp only [hd, he, if_true]
    exact (toDuration_mono_in_range d e (le_of_lt hd) hde hr).2
  · simp only [hd, if_false]
    by_cases he : e > 0
    · simp only [he, if_true]
      exact (toDuration_mono_in_range e e (le_of_lt he) (le_refl e) hr).1
    · simp [he]

/-! ## Lemmas on the finalizer -/

theorem eligible_length (r : Reporter) : (eligible r).length = (okLats r).length := by
  simp [eligible, sortFloat64s, List.length_insertionSort]

theorem eligible_sorted (r : Reporter) : (eligible r).Sorted (· ≤ ·) := by
  unfold eligible sortFloat64s
  exact List.sorted_insertionSort _ _

theorem okLats_length_le (r : Reporter) : (okLats r).length ≤ r.details.length := by
  unfold okLats
  rw [List.length_map]
  exact List.length_filter_le _ _

theorem sorted_le_last (xs : List ℚ) (hs : xs.Sorted (· ≤ ·)) (j : Nat) (hj : j < xs.length) :
    xs[j] ≤ xs.getD (xs.length - 1) 0 := by
  have hl : xs.length - 1 < xs.length := by omega
  have := hs.rel_get_of_le (a := ⟨j, hj⟩) (b := ⟨xs.length - 1, hl⟩)
    (by show j ≤ xs.length - 1; omega)
  simpa [List.getD_eq_getElem?_getD, List.getElem?_eq_getElem hl] using this

theorem Finalize_no_details (fuel : Nat) (r : Reporter) (stopReason : StopReason)
    (total now : Int) (h : r.details = []) :
    Finalize fuel r stopReason total now = some (r, baseReport r stopReason now) := by
  unfold Finalize
  simp [h]

theorem Finalize_no_eligible (fuel : Nat) (r : Reporter) (stopReason : StopReason)
    (total now : Int) (h : r.details ≠ []) (he : okLats r = []) :
    Finalize fuel r stopReason total now = some (r, detailReport r stopReason total now) := by
  have hd : 0 < r.details.length := List.length_pos.mpr h
  have hz : ¬ 0 < (sortFloat64s (okLats r)).length := by
    simp [sortFloat64s, he]
  unfold Finalize
  simp only [hd, if_true, hz, dite_false]
  rfl

theorem Finalize_eligible (fuel : Nat) (r : Reporter) (stopReason : StopReason)
    (total now : Int) (he : okLats r ≠ []) (hf : (okLats r).length + 10 ≤ fuel) :
    ∃ hist, trackHistogram fuel (eligible r) ((eligible r).getD ((eligible r).length - 1) 0)
        ((eligible r).getD 0 0) = some hist ∧
      (hist.map (fun b => b.Count)).sum = ((okLats r).length : Int) ∧ hist.length = 11 ∧
      Finalize fuel r stopReason total now =
        some (r, fullReport r stopReason total now hist) := by
  have hlen := eligible_length r
  have hpos : 0 < (okLats r).length := List.length_pos.mpr he
  have hd : 0 < r.details.length := lt_of_lt_of_le hpos (okLats_length_le r)
  have hz : 0 < (eligible r).length := by omega
  have hne : eligible r ≠ [] := List.length_pos.mp hz
  obtain ⟨hist, hh, hsum, hl⟩ := trackHistogram_sum (eligible r)
    ((eligible r).getD ((eligible r).length - 1) 0) ((eligible r).getD 0 0) fuel
    (sorted_le_last _ (eligible_sorted r)) (by omega)
  refine ⟨hist, hh, by rw [hsum, hlen], hl, ?_⟩
  have hlat : latencies (sortFloat64s (okLats r)) =
      some (pctls.map (fun p => pctlEntry p (resolved (eligible r) p))) :=
    latencies_eq (eligible r) hne
  have hz2 : 0 < (sortFloat64s (okLats r)).length := hz
  have hl1 : (sortFloat64s (okLats r)).length - 1 < (sortFloat64s (okLats r)).length := by
    omega
  have g0 : (sortFloat64s (okLats r)).get ⟨0, hz2⟩ = (eligible r).getD 0 0 := by
    simp [eligible, List.getD_eq_getElem?_getD, List.getElem?_eq_getElem hz2]
  have g1 : (sortFloat64s (okLats r)).get ⟨(sortFloat64s (okLats r)).length - 1, hl1⟩ =
      (eligible r).getD ((eligible r).length - 1) 0 := by
    simp [eligible, List.getD_eq_getElem?_getD, List.getElem?_eq_getElem hl1]
  have hh2 : trackHistogram fuel (sortFloat64s (okLats r))
      ((eligible r).getD ((eligible r).length - 1) 0) ((eligible r).getD 0 0) = some hist := hh
  unfold Finalize
  simp only [hd, if_true]
  rw [dif_pos hz2]
  simp only [g0, g1, hh2, hlat]
  rfl

/-- With fuel for `len(details) + 10` iterations `Finalize` returns, leaves the
reporter as it was, and the report carries the count, the distributions, the
details, and a histogram whose counts sum to the number of eligible samples. -/
theorem Finalize_summary (fuel : Nat) (r : Reporter) (stopReason : StopReason)
    (total now : Int) (hf : r.details.length + 10 ≤ fuel) :
    ∃ rep, Finalize fuel r stopReason total now = some (r, rep) ∧
      rep.Count = r.totalCount ∧ rep.Details = r.details ∧
      rep.ErrorDist = r.errorDist ∧ rep.StatusCodeDist = r.statusCodeDist ∧
      (rep.Histogram.map (fun b => b.Count)).sum = ((okLats r).length : Int) := by
  by_cases hd : r.details = []
  · refine ⟨_, Finalize_no_details fuel r stopReason total now hd, rfl, ?_, rfl, rfl, ?_⟩
    · simp [baseReport, hd]
    · simp [baseReport, okLats, hd]
  · by_cases he : okLats r = []
    · refine ⟨_, Finalize_no_eligible fuel r stopReason total now hd he, rfl, rfl, rfl, rfl, ?_⟩
      simp [detailReport, baseReport, he]
    · have hl := okLats_length_le r
      obtain ⟨hist, _, hsum, _, hfin⟩ :=
        Finalize_eligible fuel r stopReason total now he (by omega)
      exact ⟨_, hfin, rfl, rfl, rfl, rfl, hsum⟩

/-! ## The claims -/

/-- C1, as stated, fails for a negative `SkipFirst`: with `SkipFirst = -1` and one
ingested record the report has `Count = 1`, not `max(0, 1 - (-1)) = 2`. -/
theorem C1_count_negative_skip_counterexample :
    (Finalize 11 (Track (NewReporter "run" (-1) false) [⟨none, "OK", 5, 0⟩])
        ReasonNormalEnd 1 0).map (fun out => (out.2.Count : Int)) = some 1 ∧
    (1 : Int) ≠ max 0 ((([⟨none, "OK", 5, 0⟩] : List CallResult).length : Int) - (-1)) := by
  decide!

/-- C1 (amended): after `Track` has consumed `n` records and `Finalize` is called,
`Report.Count = max(0, n - max(0, SkipFirst))`: `n - SkipFirst` clamped at zero
for a non-negative `SkipFirst`, and `n` for a negative one. -/
theorem C1_count_eq (name : String) (skipFirst : Int) (cel : Bool)
    (results : List CallResult) (stopReason : StopReason) (total now : Int) (k : Nat) :
    ∃ rep,
      Finalize ((Track (NewReporter name skipFirst cel) results).details.length + 10 + k)
        (Track (NewReporter name skipFirst cel) results) stopReason total now =
        some (Track (NewReporter name skipFirst cel) results, rep) ∧
      (rep.Count : Int) = max 0 ((results.length : Int) - max 0 skipFirst) := by
  obtain ⟨rep, h, hc, -⟩ := Finalize_summary
    ((Track (NewReporter name skipFirst cel) results).details.length + 10 + k)
    (Track (NewReporter name skipFirst cel) results) stopReason total now (by omega)
  refine ⟨rep, h, ?_⟩
  rw [hc, Track_eq, foldl_record_totalCount]
  simp only [NewReporter, nonSkipped, List.length_drop, zero_add]
  omega

/-- C2: for every reachable reporter state the bucket counts of `Report.Histogram`
sum to the number of eligible samples that `Finalize` selected (all retained
details if `CountErrorLatency` is set, otherwise those with an empty error), and
for a non-empty ascending list `L` the counts of
`trackHistogram(L, last L, first L)` sum to `len(L)`. -/
theorem C2_histogram_counts_sum (name : String) (skipFirst : Int) (cel : Bool)
    (results : List CallResult) (stopReason : StopReason) (total now : Int) (k : Nat)
    (L : List ℚ) (hne : L ≠ []) (hs : L.Sorted (· ≤ ·)) :
    (∃ rep,
      Finalize ((Track (NewReporter name skipFirst cel) results).details.length + 10 + k)
        (Track (NewReporter name skipFirst cel) results) stopReason total now =
        some (Track (NewReporter name skipFirst cel) results, rep) ∧
      (rep.Histogram.map (fun b => b.Count)).sum =
        (if cel then (Track (NewReporter name skipFirst cel) results).details.length
         else ((Track (NewReporter name skipFirst cel) results).details.filter
                (fun d => d.Error == "")).length : Nat)) ∧
    (∃ hist, trackHistogram (L.length + 10 + k) L (L.getLast hne) (L.head hne) = some hist ∧
      (hist.map (fun b => b.Count)).sum = (L.length : Int)) := by
  constructor
  · obtain ⟨rep, h, -, -, -, -, hsum⟩ := Finalize_summary
      ((Track (NewReporter name skipFirst cel) results).details.length + 10 + k)
      (Track (NewReporter name skipFirst cel) results) stopReason total now (by omega)
    refine ⟨rep, h, ?_⟩
    rw [hsum]
    have hc : (Track (NewReporter name skipFirst cel) results).config.CountErrorLatency = cel := by
      rw [Track_eq, foldl_record_config]; rfl
    cases cel <;> simp [okLats, hc]
  · have hpos : 0 < L.length := List.length_pos.mpr hne
    have hl1 : L.length - 1 < L.length := by omega
    have hlast : L.getLast hne = L.getD (L.length - 1) 0 := by
      rw [List.getLast_eq_getElem]
      simp [List.getD_eq_getElem?_getD, List.getElem?_eq_getElem hl1]
    obtain ⟨hist, hh, hsum, -⟩ := trackHistogram_sum L (L.getLast hne) (L.head hne)
      (L.length + 10 + k) (fun j hj => by rw [hlast]; exact sorted_le_last L hs j hj) (by omega)
    exact ⟨hist, hh, hsum⟩

/-- C2 at a concrete ascending list and a concrete run. -/
theorem C2_histogram_counts_sum_witness :
    ([1, 2, 2, 5] : List ℚ) ≠ [] ∧ ([1, 2, 2, 5] : List ℚ).Sorted (· ≤ ·) ∧
    (∃ hist, trackHistogram (4 + 10 + 0) [1, 2, 2, 5]
        (([1, 2, 2, 5] : List ℚ).getLast (by simp)) (([1, 2, 2, 5] : List ℚ).head (by simp)) =
          some hist ∧
      (hist.map (fun b => b.Count)).sum = 4) :=
  ⟨by simp, by decide!,
    (C2_histogram_counts_sum "run" 1 false
      [⟨none, "OK", 5, 0⟩, ⟨some "e", "OK", 7, 1⟩, ⟨none, "OK", 9, 2⟩] ReasonNormalEnd 1 0 0
      [1, 2, 2, 5] (by simp) (by decide!)).2⟩

/-- C3, as stated, fails when a latency converts to `2^63` ns or more. The
duration `MaxInt64` ns is `9223372036.854776` s as a `float64`, its product with
`10^9` is `2^63`, outside `int64`, and the conversion gives `-2^63`: for records of
1 s and `MaxInt64` ns the latencies of the table are `10^9` for the ranks 10, 25,
50 and `-2^63` for the ranks 75, 90, 95, 99, which is not non-decreasing. -/
theorem C3_int64_overflow_counterexample :
    Seconds 9223372036854775807 = 4835703278458517 / 524288 ∧
    (latencies [1, 4835703278458517 / 524288]).map (fun tbl => tbl.map (fun e => e.Latency)) =
      some [1000000000, 1000000000, 1000000000, -9223372036854775808, -9223372036854775808,
        -9223372036854775808, -9223372036854775808] ∧
    (Finalize 12
        (Track (NewReporter "run" 0 false)
          [⟨none, "OK", 1000000000, 0⟩, ⟨none, "OK", 9223372036854775807, 1⟩])
        ReasonNormalEnd Second 0).map
        (fun out => out.2.LatencyDistribution.map (fun e => e.Latency)) =
      some [1000000000, 1000000000, 1000000000, -9223372036854775808, -9223372036854775808,
        -9223372036854775808, -9223372036854775808] ∧
    ¬ ([1000000000, 1000000000, 1000000000, -9223372036854775808, -9223372036854775808,
        -9223372036854775808, -9223372036854775808] : List Int).Sorted (· ≤ ·) := by
  decide!

/-- C3 (amended): for a non-empty ascending list whose largest value converts to
fewer than `2^63` ns (its product with `10^9`, rounded to `float64`, is below
`2^63`), the table returned by `latencies` has one entry for each rank 10, 25, 50,
75, 90, 95, 99, in that order, and its latency values are non-decreasing. -/
theorem C3_percentiles_nondecreasing (lats : List ℚ) (hne : lats ≠ [])
    (hs : lats.Sorted (· ≤ ·))
    (hr : roundFloat64 (lats.getLast hne * (Second : ℚ)) < 9223372036854775808) :
    ∃ tbl, latencies lats = some tbl ∧ tbl.length = 7 ∧
      (tbl.map (fun e => e.Latency)).Sorted (· ≤ ·) := by
  have hsec : (0 : ℚ) < (Second : ℚ) := by norm_num [Second]
  have hn : 0 < lats.length := List.length_pos.mpr hne
  have hl1 : lats.length - 1 < lats.length := by omega
  have hlast : lats.getLast hne = lats.getD (lats.length - 1) 0 := by
    rw [List.getLast_eq_getElem]
    simp [List.getD_eq_getElem?_getD, List.getElem?_eq_getElem hl1]
  have hle : ∀ q ∈ pctls, resolved lats q ≤ lats.getLast hne := by
    intro q hq
    obtain ⟨h0, h1⟩ := mem_pctls_bounds q hq
    have hlt := rankIndex_lt q lats.length h0 h1 hn
    have hnn := rankIndex_nonneg q lats.length
    have hi : (rankIndex q lats.length).toNat < lats.length := by omega
    have := sorted_le_last lats hs _ hi
    rw [hlast]
    simpa [resolved, List.getD_eq_getElem?_getD, List.getElem?_eq_getElem hi] using this
  refine ⟨_, latencies_eq lats hne, by simp [pctls], ?_⟩
  rw [List.map_map]
  unfold List.Sorted
  rw [List.pairwise_map]
  have hp : pctls.Pairwise (fun a b => 0 ≤ a ∧ a ≤ b ∧ b ≤ 100 ∧ b ∈ pctls) := by decide
  refine hp.imp ?_
  intro a b ⟨ha, hab, hb, hmem⟩
  have hrb : roundFloat64 (resolved lats b * (Second : ℚ)) < 9223372036854775808 :=
    lt_of_le_of_lt (roundFloat64_mono _ _ (by gcongr; exact hle b hmem)) hr
  exact pctlEntry_Latency_mono a b _ _ (resolved_mono lats hs hne a b ha hab hb) hrb

/-- C3 (amended) at the ten samples 1 s, ..., 10 s. -/
theorem C3_percentiles_nondecreasing_witness :
    ∃ tbl, latencies [1, 2, 3, 4, 5, 6, 7, 8, 9, 10] = some tbl ∧ tbl.length = 7 ∧
      (tbl.map (fun e => e.Latency)).Sorted (· ≤ ·) :=
  C3_percentiles_nondecreasing [1, 2, 3, 4, 5, 6, 7, 8, 9, 10] (by simp) (by decide!)
    (by decide!)

/-- C4: after `Track` the retained buffer holds at most 1,000,000 entries; its
length is `min(totalCount, 1000000)`; its contents are, in arrival order, the
details (timestamp, latency, status, error text or the empty string) of the first
`min(totalCount, 1000000)` non-skipped records; `Finalize` leaves the buffer as it
is and attaches it to `Report.Details` unchanged. -/
theorem C4_retained_details_capped (name : String) (skipFirst : Int) (cel : Bool)
    (results : List CallResult) (stopReason : StopReason) (total now : Int) (k : Nat) :
    (Track (NewReporter name skipFirst cel) results).details.length ≤ 1000000 ∧
    (Track (NewReporter name skipFirst cel) results).details.length =
      min (Track (NewReporter name skipFirst cel) results).totalCount 1000000 ∧
    (Track (NewReporter name skipFirst cel) results).details =
      ((results.drop skipFirst.toNat).take
          (min (Track (NewReporter name skipFirst cel) results).totalCount 1000000)).map
        (fun res =>
          { Timestamp := res.Timestamp, Latency := res.Duration, Status := res.Status,
            Error := (match res.Err with
              | some s => s
              | none => "") }) ∧
    ∃ rep,
      Finalize ((Track (NewReporter name skipFirst cel) results).details.length + 10 + k)
        (Track (NewReporter name skipFirst cel) results) stopReason total now =
        some (Track (NewReporter name skipFirst cel) results, rep) ∧
      rep.Details = (Track (NewReporter name skipFirst cel) results).details := by
  have hcount : (Track (NewReporter name skipFirst cel) results).totalCount =
      (results.drop skipFirst.toNat).length := by
    rw [Track_eq, foldl_record_totalCount]; simp [NewReporter, nonSkipped]
  have hdet : (Track (NewReporter name skipFirst cel) results).details =
      ((results.drop skipFirst.toNat).take 1000000).map toDetail := by
    rw [Track_eq, foldl_record_details]; simp [NewReporter, nonSkipped, maxResult]
  have htake : (results.drop skipFirst.toNat).take
      (min (results.drop skipFirst.toNat).length 1000000) =
      (results.drop skipFirst.toNat).take 1000000 := by
    rcases le_total (results.drop skipFirst.toNat).length 1000000 with h | h
    · rw [min_eq_left h, List.take_of_length_le h, List.take_of_length_le (le_refl _)]
    · rw [min_eq_right h]
  have hfun : (fun res : CallResult =>
      ({ Timestamp := res.Timestamp, Latency := res.Duration, Status := res.Status,
         Error := (match res.Err with
           | some s => s
           | none => "") } : ResultDetail)) = toDetail := by
    funext res
    unfold toDetail errStr
    cases res.Err <;> rfl
  have hlen : (Track (NewReporter name skipFirst cel) results).details.length =
      min (results.drop skipFirst.toNat).length 1000000 := by
    rw [hdet, List.length_map, List.length_take, min_comm]
  refine ⟨?_, ?_, ?_, ?_⟩
  · rw [hlen]; exact min_le_right _ _
  · rw [hlen, hcount]
  · rw [hcount, htake, hfun, hdet]
  · obtain ⟨rep, h, -, hd, -⟩ := Finalize_summary
      ((Track (NewReporter name skipFirst cel) results).details.length + 10 + k)
      (Track (NewReporter name skipFirst cel) results) stopReason total now (by omega)
    exact ⟨rep, h, hd⟩

theorem Dist.keys_incr (d : Dist) (k : String) :
    (d.incr k).map Prod.fst =
      if k ∈ d.map Prod.fst then d.map Prod.fst else d.map Prod.fst ++ [k] := by
  induction d with
  | nil => simp [Dist.incr]
  | cons hd t ih =>
    obtain ⟨k', v⟩ := hd
    unfold Dist.incr
    by_cases h : k' = k
    · simp [h]
    · have h2 : ¬ k = k' := fun e => h e.symm
      simp only [h, if_false, List.map_cons, List.mem_cons, h2, false_or, ih]
      split <;> simp

theorem Dist.keys_nodup_incr (d : Dist) (k : String) (h : (d.map Prod.fst).Nodup) :
    ((d.incr k).map Prod.fst).Nodup := by
  rw [Dist.keys_incr]
  split
  · exact h
  · rename_i hk
    rw [List.nodup_append]
    refine ⟨h, List.nodup_singleton k, ?_⟩
    intro a ha hb
    rw [List.mem_singleton] at hb
    exact hk (hb ▸ ha)

theorem foldl_record_statusCodeDist_nodup (xs : List CallResult) (r : Reporter)
    (h : (r.statusCodeDist.map Prod.fst).Nodup) :
    ((xs.foldl record r).statusCodeDist.map Prod.fst).Nodup := by
  induction xs generalizing r with
  | nil => simpa using h
  | cons x t ih =>
    rw [List.foldl_cons]
    apply ih
    rw [record_statusCodeDist]
    exact Dist.keys_nodup_incr _ _ h

theorem foldl_record_errorDist_total (xs : List CallResult) (r : Reporter) :
    (xs.foldl record r).errorDist.total =
      r.errorDist.total + (xs.countP (fun res => res.Err.isSome) : Nat) := by
  induction xs generalizing r with
  | nil => simp
  | cons x t ih =>
    rw [List.foldl_cons, ih, record_errorDist, List.countP_cons]
    cases hx : x.Err with
    | none => simp
    | some e => simp [Dist.total_incr]; ring

/-- C5: after `Track` (however many records were ingested) the values of the
status-code distribution sum to `totalCount`, `statusCodeDist[s]` is the number of
non-skipped records with status `s`, and `errorDist[m]` is the number of
non-skipped records carrying an error with text `m`; the values of `errorDist`
sum to the number of non-skipped records that carry an error, so records without
an error add nothing to it. -/
theorem C5_distributions_count_all (name : String) (skipFirst : Int) (cel : Bool)
    (results : List CallResult) (s m : String) :
    (Track (NewReporter name skipFirst cel) results).totalCount =
      (results.drop skipFirst.toNat).length ∧
    (Track (NewReporter name skipFirst cel) results).statusCodeDist.total =
      ((Track (NewReporter name skipFirst cel) results).totalCount : Int) ∧
    ((Track (NewReporter name skipFirst cel) results).statusCodeDist.map Prod.fst).Nodup ∧
    (Track (NewReporter name skipFirst cel) results).statusCodeDist.get s =
      ((results.drop skipFirst.toNat).countP (fun res => res.Status = s) : Nat) ∧
    (Track (NewReporter name skipFirst cel) results).errorDist.get m =
      ((results.drop skipFirst.toNat).countP (fun res => res.Err = some m) : Nat) ∧
    (Track (NewReporter name skipFirst cel) results).errorDist.total =
      ((results.drop skipFirst.toNat).countP (fun res => res.Err.isSome) : Nat) := by
  rw [Track_eq]
  refine ⟨?_, ?_, ?_, ?_, ?_, ?_⟩
  · rw [foldl_record_totalCount]; simp [NewReporter, nonSkipped]
  · rw [foldl_record_statusCodeDist_total, foldl_record_totalCount]
    simp [NewReporter, Dist.total]
  · apply foldl_record_statusCodeDist_nodup
    simp [NewReporter]
  · rw [foldl_record_statusCodeDist_get]; simp [NewReporter, Dist.get, nonSkipped]
  · rw [foldl_record_errorDist_get]; simp [NewReporter, Dist.get, nonSkipped]
  · rw [foldl_record_errorDist_total]; simp [NewReporter, Dist.total, nonSkipped]

theorem record_with_config (r : Reporter) (c : RunConfig) (res : CallResult) :
    record { r with config := c } res = { record r res with config := c } := by
  unfold record
  cases res.Err <;> simp only [] <;> split <;> rfl

theorem foldl_record_with_config (xs : List CallResult) (r : Reporter) (c : RunConfig) :
    xs.foldl record { r with config := c } = { xs.foldl record r with config := c } := by
  induction xs generalizing r with
  | nil => rfl
  | cons x t ih => rw [List.foldl_cons, List.foldl_cons, record_with_config, ih]

/-- C6: for every sequence `s` and every `SkipFirst = k ≥ 0`, `Track` with
`SkipFirst = k` on `s` ends with the same `totalCount`, summed latency, status
distribution, error distribution and retained details as `Track` with
`SkipFirst = 0` on `s` without its first `k` records. -/
theorem C6_skip_first_excluded (name : String) (cel : Bool) (k : Nat) (s : List CallResult) :
    (Track (NewReporter name (k : Int) cel) s).totalCount =
      (Track (NewReporter name 0 cel) (s.drop k)).totalCount ∧
    (Track (NewReporter name (k : Int) cel) s).totalLatenciesSec =
      (Track (NewReporter name 0 cel) (s.drop k)).totalLatenciesSec ∧
    (Track (NewReporter name (k : Int) cel) s).statusCodeDist =
      (Track (NewReporter name 0 cel) (s.drop k)).statusCodeDist ∧
    (Track (NewReporter name (k : Int) cel) s).errorDist =
      (Track (NewReporter name 0 cel) (s.drop k)).errorDist ∧
    (Track (NewReporter name (k : Int) cel) s).details =
      (Track (NewReporter name 0 cel) (s.drop k)).details := by
  have h : Track (NewReporter name (k : Int) cel) s =
      { Track (NewReporter name 0 cel) (s.drop k) with
        config := (NewReporter name (k : Int) cel).config } := by
    rw [Track_eq, Track_eq]
    have hn : NewReporter name (k : Int) cel =
        { NewReporter name 0 cel with config := (NewReporter name (k : Int) cel).config } := rfl
    rw [hn, foldl_record_with_config]
    simp [nonSkipped]
  rw [h]
  exact ⟨rfl, rfl, rfl, rfl, rfl⟩

theorem Track_totalCount (name : String) (skipFirst : Int) (cel : Bool)
    (results : List CallResult) :
    (Track (NewReporter name skipFirst cel) results).totalCount =
      (results.drop skipFirst.toNat).length := by
  rw [Track_eq, foldl_record_totalCount]; simp [NewReporter, nonSkipped]

theorem Track_details (name : String) (skipFirst : Int) (cel : Bool)
    (results : List CallResult) :
    (Track (NewReporter name skipFirst cel) results).details =
      ((results.drop skipFirst.toNat).take maxResult).map toDetail := by
  rw [Track_eq, foldl_record_details]; simp [NewReporter, nonSkipped]

theorem Track_config (name : String) (skipFirst : Int) (cel : Bool)
    (results : List CallResult) :
    (Track (NewReporter name skipFirst cel) results).config =
      (NewReporter name skipFirst cel).config := by
  rw [Track_eq, foldl_record_config]

/-- C7, as stated, fails for an error whose text is empty: with
`CountErrorLatency = false` the single record below (one second long) carries an
error, is counted in the error distribution under the empty key, and is still
selected as an eligible sample. -/
theorem C7_empty_error_text_counterexample :
    (Track (NewReporter "run" 0 false) [⟨some "", "OK", 1000000000, 0⟩]).errorDist =
      [("", 1)] ∧
    okLats (Track (NewReporter "run" 0 false) [⟨some "", "OK", 1000000000, 0⟩]) = [1] ∧
    okLats (Track (NewReporter "run" 0 false) [⟨some "", "OK", 1000000000, 0⟩]) ≠
      ((([⟨some "", "OK", 1000000000, 0⟩] : List CallResult).drop 0).filter
        (fun res => res.Err = none)).map (fun res => Seconds res.Duration) := by
  decide!

/-- C7 (amended): when `CountErrorLatency` is false the eligible set is exactly the
retained records whose error text is empty (no error, or an error with empty
text), so every retained record carrying an error with non-empty text is
excluded; when it is true every retained record is eligible. In the run of five
records of identical duration, one with an error, the error distribution has one
entry of count 1 and the eligible set has size 4. -/
theorem C7_eligible_set (name : String) (skipFirst : Int) (results : List CallResult) :
    okLats (Track (NewReporter name skipFirst false) results) =
      (((results.drop skipFirst.toNat).take 1000000).filter
        (fun res => decide (res.Err = none ∨ res.Err = some ""))).map
        (fun res => Seconds res.Duration) ∧
    okLats (Track (NewReporter name skipFirst true) results) =
      ((results.drop skipFirst.toNat).take 1000000).map (fun res => Seconds res.Duration) ∧
    (Track (NewReporter "run" 0 false)
        [⟨none, "OK", 7, 0⟩, ⟨none, "OK", 7, 1⟩, ⟨some "boom", "Unavailable", 7, 2⟩,
         ⟨none, "OK", 7, 3⟩, ⟨none, "OK", 7, 4⟩]).errorDist = [("boom", 1)] ∧
    (okLats (Track (NewReporter "run" 0 false)
        [⟨none, "OK", 7, 0⟩, ⟨none, "OK", 7, 1⟩, ⟨some "boom", "Unavailable", 7, 2⟩,
         ⟨none, "OK", 7, 3⟩, ⟨none, "OK", 7, 4⟩])).length = 4 := by
  refine ⟨?_, ?_, by decide!, by decide!⟩
  · unfold okLats
    rw [Track_config, Track_details]
    simp only [NewReporter, Bool.or_false, maxResult, List.filter_map, List.map_map]
    congr 1
    apply List.filter_congr
    intro res _
    cases h : res.Err with
    | none => simp [toDetail, errStr, h]
    | some e =>
      by_cases he : e = ""
      · simp [toDetail, errStr, h, he]
      · simp [toDetail, errStr, h, he]
  · unfold okLats
    rw [Track_config, Track_details]
    simp [NewReporter, maxResult]
    rfl

/-- C8: when the total count is zero `Finalize` (with any fuel) takes the branch
without a division and returns a report with `Count = 0` in which the average,
fastest, slowest, throughput, percentile table, histogram and details are all
unpopulated; the count of a run is zero exactly when no more than `SkipFirst`
records were ingested; and in every state reached through `Track` the guard
`len(details) > 0` holds exactly when `totalCount > 0`. -/
theorem C8_zero_count_report (name : String) (skipFirst : Int) (cel : Bool)
    (results reached : List CallResult) (stopReason : StopReason) (total now : Int)
    (fuel : Nat)
    (h0 : (Track (NewReporter name skipFirst cel) results).totalCount = 0) :
    (∃ rep,
      Finalize fuel (Track (NewReporter name skipFirst cel) results) stopReason total now =
        some (Track (NewReporter name skipFirst cel) results, rep) ∧
      rep.Count = 0 ∧ rep.Average = 0 ∧ rep.Fastest = 0 ∧ rep.Slowest = 0 ∧ rep.Rps = 0 ∧
      rep.LatencyDistribution = [] ∧ rep.Histogram = [] ∧ rep.Details = []) ∧
    ((Track (NewReporter name skipFirst cel) reached).totalCount = 0 ↔
      (reached.length : Int) ≤ max 0 skipFirst) ∧
    (0 < (Track (NewReporter name skipFirst cel) reached).details.length ↔
      0 < (Track (NewReporter name skipFirst cel) reached).totalCount) := by
  refine ⟨?_, ?_, ?_⟩
  · have hd : (Track (NewReporter name skipFirst cel) results).details = [] := by
      rw [Track_details]
      rw [Track_totalCount] at h0
      rw [List.length_eq_zero.mp h0]
      rfl
    refine ⟨_, Finalize_no_details fuel _ stopReason total now hd, ?_⟩
    simp [baseReport, h0]
  · rw [Track_totalCount, List.length_drop]
    omega
  · rw [Track_details, Track_totalCount, List.length_map, List.length_take]
    simp [maxResult]

/-- C8 at a run of one record with `SkipFirst = 1`. -/
theorem C8_zero_count_report_witness :
    (Track (NewReporter "run" 1 false) [⟨none, "OK", 5, 0⟩]).totalCount = 0 ∧
    ∃ rep,
      Finalize 0 (Track (NewReporter "run" 1 false) [⟨none, "OK", 5, 0⟩]) ReasonNormalEnd 1 0 =
        some (Track (NewReporter "run" 1 false) [⟨none, "OK", 5, 0⟩], rep) ∧
      rep.Count = 0 ∧ rep.Average = 0 ∧ rep.Fastest = 0 ∧ rep.Slowest = 0 ∧ rep.Rps = 0 ∧
      rep.LatencyDistribution = [] ∧ rep.Histogram = [] ∧ rep.Details = [] :=
  ⟨by decide, (C8_zero_count_report "run" 1 false [⟨none, "OK", 5, 0⟩] [] ReasonNormalEnd 1 0 0
    (by decide)).1⟩

/-- C9, as stated, fails for the average: in a run of one record of two seconds
that carries an error, with `CountErrorLatency = false` and one second elapsed,
there is no eligible sample, and the report still has `Average = 2000000000`
(nanoseconds) and `Rps = 1`. -/
theorem C9_average_populated_counterexample :
    okLats (Track (NewReporter "run" 0 false) [⟨some "boom", "Unavailable", 2000000000, 0⟩]) = [] ∧
    (Finalize 0 (Track (NewReporter "run" 0 false) [⟨some "boom", "Unavailable", 2000000000, 0⟩])
        ReasonNormalEnd Second 0).map (fun out => (out.2.Average, out.2.Rps)) =
      some (2000000000, 1) := by
  decide!

/-- C9 (amended): for every reporter state with zero eligible samples `Finalize`
(with any fuel) returns a report in which the fastest and slowest latency, the
percentile table and the histogram are unpopulated; the average is unpopulated
only if no detail was retained, and otherwise it is the summed latency divided by
the total count, computed from all non-skipped records. -/
theorem C9_no_eligible_samples (fuel : Nat) (r : Reporter) (stopReason : StopReason)
    (total now : Int) (he : okLats r = []) :
    ∃ rep, Finalize fuel r stopReason total now = some (r, rep) ∧
      rep.Fastest = 0 ∧ rep.Slowest = 0 ∧ rep.LatencyDistribution = [] ∧ rep.Histogram = [] ∧
      rep.Average =
        (if r.details = [] then 0
         else truncate (r.totalLatenciesSec / (r.totalCount : ℚ) * (Second : ℚ))) := by
  by_cases hd : r.details = []
  · refine ⟨_, Finalize_no_details fuel r stopReason total now hd, ?_⟩
    simp [baseReport, hd]
  · refine ⟨_, Finalize_no_eligible fuel r stopReason total now hd he, ?_⟩
    simp [detailReport, baseReport, hd]

/-- C9 (amended) at a run of one record that carries an error. -/
theorem C9_no_eligible_samples_witness :
    okLats (Track (NewReporter "run" 0 false) [⟨some "boom", "Unavailable", 2000000000, 0⟩]) = [] ∧
    ∃ rep,
      Finalize 0 (Track (NewReporter "run" 0 false) [⟨some "boom", "Unavailable", 2000000000, 0⟩])
          ReasonNormalEnd Second 0 =
        some (Track (NewReporter "run" 0 false) [⟨some "boom", "Unavailable", 2000000000, 0⟩], rep) ∧
      rep.Fastest = 0 ∧ rep.Slowest = 0 ∧ rep.LatencyDistribution = [] ∧ rep.Histogram = [] ∧
      rep.Average =
        (if (Track (NewReporter "run" 0 false)
              [⟨some "boom", "Unavailable", 2000000000, 0⟩]).details = [] then 0
         else truncate
          ((Track (NewReporter "run" 0 false)
              [⟨some "boom", "Unavailable", 2000000000, 0⟩]).totalLatenciesSec /
            ((Track (NewReporter "run" 0 false)
              [⟨some "boom", "Unavailable", 2000000000, 0⟩]).totalCount : ℚ) * (Second : ℚ))) :=
  ⟨by decide!, C9_no_eligible_samples 0 _ ReasonNormalEnd Second 0 (by decide!)⟩

/-- C10, as stated, fails for the `Date` field: `Finalize` stamps the report with
the clock reading of the call, so two calls with the same arguments at different
clock readings return different reports. -/
theorem C10_date_differs_counterexample :
    (Finalize 11 (Track (NewReporter "run" 0 false) [⟨none, "OK", 5, 0⟩])
        ReasonNormalEnd Second 0).map Prod.snd ≠
    (Finalize 11 (Track (NewReporter "run" 0 false) [⟨none, "OK", 5, 0⟩])
        ReasonNormalEnd Second 1).map Prod.snd := by
  decide!

/-- C10 (amended): `Finalize` leaves every field of the reporter unchanged, and a
second call with the same stop reason and elapsed total, made on the reporter as
the first call left it, returns a report that agrees with the first in every
field except `Date`, which holds the clock reading of each call; the two reports
are identical when the clock readings coincide. -/
theorem C10_finalize_idempotent (r : Reporter) (stopReason : StopReason) (total : Int)
    (now1 now2 : Int) (k : Nat) :
    ∃ r1 rep1 r2 rep2,
      Finalize (r.details.length + 10 + k) r stopReason total now1 = some (r1, rep1) ∧
      Finalize (r.details.length + 10 + k) r1 stopReason total now2 = some (r2, rep2) ∧
      r1 = r ∧ r2 = r ∧ rep2 = { rep1 with Date := now2 } ∧
      (now1 = now2 → rep2 = rep1) := by
  by_cases hd : r.details = []
  · refine ⟨r, _, r, _, Finalize_no_details _ r stopReason total now1 hd,
      Finalize_no_details _ r stopReason total now2 hd, rfl, rfl, rfl, ?_⟩
    intro h; rw [h]
  · by_cases he : okLats r = []
    · refine ⟨r, _, r, _, Finalize_no_eligible _ r stopReason total now1 hd he,
        Finalize_no_eligible _ r stopReason total now2 hd he, rfl, rfl, rfl, ?_⟩
      intro h; rw [h]
    · have hl := okLats_length_le r
      obtain ⟨hist1, hh1, -, -, hfin1⟩ :=
        Finalize_eligible (r.details.length + 10 + k) r stopReason total now1 he (by omega)
      obtain ⟨hist2, hh2, -, -, hfin2⟩ :=
        Finalize_eligible (r.details.length + 10 + k) r stopReason total now2 he (by omega)
      have hh : hist2 = hist1 := Option.some.inj (hh2.symm.trans hh1)
      subst hh
      refine ⟨r, _, r, _, hfin1, hfin2, rfl, rfl, rfl, ?_⟩
      intro h; rw [h]

/-- C10 (amended) at a fresh reporter, before any record, and two equal clock
readings. -/
theorem C10_finalize_idempotent_witness :
    ∃ r1 rep1 r2 rep2,
      Finalize (0 + 10 + 1) (NewReporter "run" 0 false) ReasonNormalEnd Second 7 =
        some (r1, rep1) ∧
      Finalize (0 + 10 + 1) r1 ReasonNormalEnd Second 7 = some (r2, rep2) ∧
      r1 = NewReporter "run" 0 false ∧ r2 = NewReporter "run" 0 false ∧ rep2 = rep1 := by
  obtain ⟨r1, rep1, r2, rep2, h1, h2, e1, e2, -, h⟩ :=
    C10_finalize_idempotent (NewReporter "run" 0 false) ReasonNormalEnd Second 7 7 1
  exact ⟨r1, rep1, r2, rep2, h1, h2, e1, e2, h rfl⟩

/-! ## Percentile ranks -/

theorem sorted_getD_le (xs : List ℚ) (hs : xs.Sorted (· ≤ ·)) (i j : Nat) (hij : i ≤ j)
    (hj : j < xs.length) : xs.getD i 0 ≤ xs.getD j 0 := by
  have hi : i < xs.length := lt_of_le_of_lt hij hj
  have := hs.rel_get_of_le (a := ⟨i, hi⟩) (b := ⟨j, hj⟩) hij
  simpa [List.getD_eq_getElem?_getD, List.getElem?_eq_getElem hi,
    List.getElem?_eq_getElem hj] using this

theorem rankIndex_eq_specIndex (p : Int) (n : Nat) (hp : 0 ≤ p) :
    rankIndex p n = specIndex p n := by
  have hpn : (0 : Int) ≤ p * (n : Int) := by positivity
  have hip : ((p : ℚ) / 100) * (n : ℚ) = ((p * (n : Int) : Int) : ℚ) / ((100 : Nat) : ℚ) := by
    push_cast; ring
  have hnn : (0 : ℚ) ≤ ((p : ℚ) / 100) * (n : ℚ) := by
    have : (0 : ℚ) ≤ (p : ℚ) := by exact_mod_cast hp
    positivity
  have hfl : truncate (((p : ℚ) / 100) * (n : ℚ)) = (p * (n : Int)) / 100 := by
    rw [truncate_of_nonneg _ hnn, hip, Rat.floor_intCast_div_natCast]
    rfl
  have hex : (((p : ℚ) / 100) * (n : ℚ) = (((p * (n : Int)) / 100 : Int) : ℚ)) ↔
      (p * (n : Int)) % 100 = 0 := by
    constructor
    · intro h
      have h2 : ((p * (n : Int) : Int) : ℚ) = ((100 * ((p * (n : Int)) / 100) : Int) : ℚ) := by
        push_cast
        rw [← h]; ring
      have h3 : p * (n : Int) = 100 * ((p * (n : Int)) / 100) := by exact_mod_cast h2
      omega
    · intro h
      have h3 : p * (n : Int) = 100 * ((p * (n : Int)) / 100) := by omega
      have h2 : ((p * (n : Int) : Int) : ℚ) = ((100 * ((p * (n : Int)) / 100) : Int) : ℚ) := by
        exact_mod_cast h3
      rw [hip, h2]; push_cast; ring
  unfold rankIndex specIndex
  simp only [hfl, hex]

theorem rankIndex_fifty (n : Nat) (hn : 0 < n) : (rankIndex 50 n).toNat = (n - 1) / 2 := by
  rw [rankIndex_eq_specIndex 50 n (by norm_num)]
  unfold specIndex
  simp only []
  split <;> split <;> omega

theorem getElem?_map_pctls (f : Int → LatencyDistribution) :
    (pctls.map f).get? 2 = some (f 50) := rfl

/-- C11, as stated, fails when the number of samples is even and the two middle
samples differ. For the two samples 1 s and 2 s the 50th percentile is 1 s, the
median 1.5 s. In the scenario of 100 records with durations 10 ms, ..., 109 ms and
`SkipFirst = 10` the report has `Count = 90` and a 50th percentile of 64 ms, the
45th smallest of the 90 eligible durations, whose median is 64.5 ms. -/
theorem C11_p50_not_median_counterexample :
    (latencies [1, 2]).map (fun tbl => tbl.map (fun e => e.Latency)) =
      some [1000000000, 1000000000, 1000000000, 2000000000, 2000000000, 2000000000,
        2000000000] ∧
    truncate (median [1, 2] * (Second : ℚ)) = 1500000000 ∧
    (Finalize 100 (Track (NewReporter "run" 10 false) scenario) ReasonNormalEnd Second 0).map
        (fun out => (out.2.Count, out.2.LatencyDistribution.get? 2)) =
      some (90, some { Percentage := 50, Latency := 64000000 }) ∧
    truncate (median (eligible (Track (NewReporter "run" 10 false) scenario)) * (Second : ℚ)) =
      64500000 := by
  decide!

/-- C11 (amended): for every non-empty ascending list of `N` samples the entry of
the 50th percentile is built from the sample at index `floor((N - 1) / 2)`. That
sample is the median when `N` is odd; when `N` is even it is the lower of the two
middle samples, which is at most the median and equals it exactly when the two
middle samples are equal. -/
theorem C11_p50_lower_median (lats : List ℚ) (hne : lats ≠ []) (hs : lats.Sorted (· ≤ ·)) :
    ∃ tbl, latencies lats = some tbl ∧
      tbl.get? 2 = some (pctlEntry 50 (lats.getD ((lats.length - 1) / 2) 0)) ∧
      (lats.length % 2 = 1 → lats.getD ((lats.length - 1) / 2) 0 = median lats) ∧
      (lats.length % 2 = 0 →
        lats.getD ((lats.length - 1) / 2) 0 ≤ median lats ∧
        (lats.getD ((lats.length - 1) / 2) 0 = median lats ↔
          lats.getD (lats.length / 2 - 1) 0 = lats.getD (lats.length / 2) 0)) := by
  have hn : 0 < lats.length := List.length_pos.mpr hne
  refine ⟨_, latencies_eq lats hne, ?_, ?_, ?_⟩
  · rw [getElem?_map_pctls]
    simp only [resolved, rankIndex_fifty lats.length hn]
  · intro hodd
    have : (lats.length - 1) / 2 = lats.length / 2 := by omega
    simp [median, hodd, this]
  · intro heven
    have h1 : (lats.length - 1) / 2 = lats.length / 2 - 1 := by omega
    have hle := sorted_getD_le lats hs (lats.length / 2 - 1) (lats.length / 2) (by omega)
      (by omega)
    have hm : median lats =
        (lats.getD (lats.length / 2 - 1) 0 + lats.getD (lats.length / 2) 0) / 2 := by
      simp [median, heven]
    rw [h1, hm]
    constructor
    · linarith
    · constructor
      · intro h; linarith
      · intro h; rw [h]; ring

/-- C11 (amended) at the two samples 1 s and 2 s. -/
theorem C11_p50_lower_median_witness :
    ∃ tbl, latencies [1, 2] = some tbl ∧
      tbl.get? 2 = some (pctlEntry 50 (([1, 2] : List ℚ).getD ((2 - 1) / 2) 0)) :=
  let ⟨tbl, h1, h2, _⟩ := C11_p50_lower_median [1, 2] (by simp) (by decide!)
  ⟨tbl, h1, h2⟩

theorem filter_map_pctlEntry (v : Int → ℚ) (ps : List Int) (hps : ∀ p ∈ ps, p ≠ 0) :
    ((ps.map (fun p => pctlEntry p (v p))).filter (fun e => decide (e.Percentage ≠ 0))).length =
      (ps.filter (fun p => decide (0 < v p))).length := by
  induction ps with
  | nil => rfl
  | cons a t ih =>
    have ha : a ≠ 0 := hps a (List.mem_cons_self a t)
    have iht := ih (fun p hp => hps p (List.mem_cons_of_mem a hp))
    by_cases hv : 0 < v a
    · have h1 : (pctlEntry a (v a)).Percentage = a := by simp [pctlEntry, hv]
      simp only [List.map_cons, List.filter_cons, h1, ha, hv, ne_eq, not_false_eq_true,
        decide_True, if_true, List.length_cons]
      simp only [ne_eq] at iht
      rw [iht]
    · have h1 : (pctlEntry a (v a)).Percentage = 0 := by simp [pctlEntry, hv]
      simp only [List.map_cons, List.filter_cons, h1, hv, ne_eq, not_true_eq_false,
        decide_False, if_false]
      simp only [ne_eq] at iht
      simpa using iht

/-- C12, as stated, fails: the table always has seven entries, and a rank whose
resolved value is not positive keeps a zero-valued entry. For the samples 0 s and
1 s the ranks 10, 25 and 50 resolve to 0; the table has seven entries, three of
them zero-valued, although only four ranks have a positive resolved value. -/
theorem C12_zero_entries_kept_counterexample :
    latencies [0, 1] =
      some [⟨0, 0⟩, ⟨0, 0⟩, ⟨0, 0⟩, ⟨75, 1000000000⟩, ⟨90, 1000000000⟩, ⟨95, 1000000000⟩,
        ⟨99, 1000000000⟩] ∧
    (pctls.filter (fun p => decide (0 < resolved [0, 1] p))).length = 4 ∧
    (latencies [0, 1]).map List.length ≠ some 4 := by
  decide!

/-- C12 (amended): for every non-empty input the table returned by `latencies`
has exactly seven entries, one for each rank in rank order; the entry of rank `p`
carries `p` and the resolved value converted to nanoseconds when that value is
positive, and is left zero-valued (rank 0, latency 0) otherwise; so the entries with a non-zero
rank are as many as the ranks with a positive resolved value. -/
theorem C12_table_entries (lats : List ℚ) (hne : lats ≠ []) :
    ∃ tbl, latencies lats = some tbl ∧ tbl.length = 7 ∧
      tbl = pctls.map (fun p =>
        if 0 < lats.getD (rankIndex p lats.length).toNat 0 then
          { Percentage := p,
            Latency := toDuration (lats.getD (rankIndex p lats.length).toNat 0) }
        else { Percentage := 0, Latency := 0 }) ∧
      (tbl.filter (fun e => decide (e.Percentage ≠ 0))).length =
        (pctls.filter
          (fun p => decide (0 < lats.getD (rankIndex p lats.length).toNat 0))).length := by
  refine ⟨_, latencies_eq lats hne, by simp [pctls], rfl, ?_⟩
  exact filter_map_pctlEntry (resolved lats) pctls (by decide)

/-- C12 (amended) at the samples 0 s and 1 s. -/
theorem C12_table_entries_witness :
    ∃ tbl, latencies [0, 1] = some tbl ∧ tbl.length = 7 :=
  let ⟨tbl, h1, h2, _⟩ := C12_table_entries [0, 1] (by simp)
  ⟨tbl, h1, h2⟩

/-- C13: for every non-empty list of `N` samples and every rank `p` of the fixed
set, the index that `latencies` computes is `floor(p * N / 100)`, less one when
`p * N / 100` is a whole number, clamped at zero; this is
`max(0, ceil(p * N / 100) - 1)`, it is within the list, and the value resolved for
`p` is the sample at that index. -/
theorem C13_rank_index (lats : List ℚ) (hne : lats ≠ []) (p : Int) (hp : p ∈ pctls) :
    rankIndex p lats.length = specIndex p lats.length ∧
    specIndex p lats.length = max 0 (⌈((p : ℚ) * (lats.length : ℚ)) / 100⌉ - 1) ∧
    (specIndex p lats.length).toNat < lats.length ∧
    ∃ tbl, latencies lats = some tbl ∧
      tbl = pctls.map
        (fun q => pctlEntry q (lats.getD (specIndex q lats.length).toNat 0)) := by
  have hn : 0 < lats.length := List.length_pos.mpr hne
  obtain ⟨h0, h1⟩ := mem_pctls_bounds p hp
  have he := rankIndex_eq_specIndex p lats.length h0
  have hlt := rankIndex_lt p lats.length h0 h1 hn
  have hnn := rankIndex_nonneg p lats.length
  refine ⟨he, ?_, ?_, _, latencies_eq lats hne, ?_⟩
  · rw [← he, rankIndex_eq_ceil p lats.length h0]
    have : ((p : ℚ) / 100) * (lats.length : ℚ) = ((p : ℚ) * (lats.length : ℚ)) / 100 := by
      ring
    rw [this]
  · rw [← he]; omega
  · apply List.map_congr_left
    intro q hq
    rw [resolved, rankIndex_eq_specIndex q lats.length (mem_pctls_bounds q hq).1]

/-- C13 at ten samples and rank 90: the index is 8. -/
theorem C13_rank_index_witness :
    rankIndex 90 ([1, 2, 3, 4, 5, 6, 7, 8, 9, 10] : List ℚ).length = 8 ∧
    specIndex 90 ([1, 2, 3, 4, 5, 6, 7, 8, 9, 10] : List ℚ).length = 8 :=
  have h := C13_rank_index [1, 2, 3, 4, 5, 6, 7, 8, 9, 10] (by simp) 90 (by decide)
  ⟨h.1.trans (by decide), by decide⟩

/-! ## Histogram marks and counts -/

theorem map_Mark_zipWith (n : Nat) (buckets : List ℚ) (counts : List Int)
    (h : buckets.length ≤ counts.length) :
    (List.zipWith (toBucket n) buckets counts).map (fun b => b.Mark) = buckets := by
  induction buckets generalizing counts with
  | nil => simp
  | cons b bs ih =>
    cases counts with
    | nil => simp at h
    | cons c t =>
      simp only [List.zipWith_cons_cons, List.map_cons, List.cons.injEq]
      exact ⟨rfl, ih t (by simpa using h)⟩

/-- Shape of a returned histogram: the marks are `bucketMarks`, the counts are the
result of the cursor loop. -/
theorem trackHistogram_eq_some (fuel : Nat) (latencies : List ℚ) (slowest fastest : ℚ)
    (hist : List Bucket) (h : trackHistogram fuel latencies slowest fastest = some hist) :
    ∃ counts max,
      histLoop latencies (bucketMarks slowest fastest) fuel 0 0 (List.replicate 11 0) 0 =
        some (counts, max) ∧
      counts.length = 11 ∧
      hist = List.zipWith (toBucket latencies.length) (bucketMarks slowest fastest) counts ∧
      hist.map (fun b => b.Mark) = bucketMarks slowest fastest ∧
      hist.map (fun b => b.Count) = counts := by
  have hlen := bucketMarks_length slowest fastest
  have e : List.replicate 11 (0 : Int) =
      List.replicate (bucketMarks slowest fastest).length 0 := by rw [hlen]
  rw [e]
  unfold trackHistogram at h
  simp only [] at h
  cases hl : histLoop latencies (bucketMarks slowest fastest) fuel 0 0
      (List.replicate (bucketMarks slowest fastest).length 0) 0 with
  | none => rw [hl] at h; exact absurd h (by simp)
  | some res =>
    obtain ⟨counts, max⟩ := res
    rw [hl] at h
    simp only [Option.some.injEq] at h
    have hs := histLoop_sum latencies (bucketMarks slowest fastest) fuel 0 0 _ 0 (counts, max)
      (by simp [hlen]) (by simp) hl
    have hc : counts.length = 11 := by simpa [hlen] using hs.2
    refine ⟨counts, max, rfl, hc, h.symm, ?_, ?_⟩
    · rw [← h, map_Mark_zipWith _ _ _ (by omega)]
    · rw [← h, map_Count_zipWith _ _ _ (by omega)]

theorem bucketMarks_eq (slowest fastest : ℚ) :
    bucketMarks slowest fastest =
      (List.range 10).map (fun (i : Nat) =>
        roundFloat64 (fastest +
          roundFloat64 (roundFloat64 (roundFloat64 (slowest - fastest) / 10) * (i : ℚ)))) ++
        [slowest] := by
  unfold bucketMarks
  simp only [Nat.cast_ofNat]

/-- The rounded product `bs * i` never exceeds `slowest - fastest` for `i ≤ 9`. -/
theorem bucketStep_le (slowest fastest : ℚ) (h : fastest ≤ slowest) (i : Nat) (hi : i ≤ 9) :
    roundFloat64 (roundFloat64 (roundFloat64 (slowest - fastest) / 10) * (i : ℚ)) ≤
      slowest - fastest := by
  have hD : 0 ≤ slowest - fastest := by linarith
  have h1 := roundFloat64_le_mul _ hD
  have h1n := roundFloat64_nonneg _ hD
  have h2 := roundFloat64_le_mul (roundFloat64 (slowest - fastest) / 10) (by positivity)
  have h2n := roundFloat64_nonneg (roundFloat64 (slowest - fastest) / 10) (by positivity)
  have hi0 : (0 : ℚ) ≤ (i : ℚ) := by positivity
  have hi9 : (i : ℚ) ≤ 9 := by exact_mod_cast hi
  have h3 := roundFloat64_le_mul
    (roundFloat64 (roundFloat64 (slowest - fastest) / 10) * (i : ℚ)) (by positivity)
  have h4 : roundFloat64 (roundFloat64 (slowest - fastest) / 10) * (i : ℚ) ≤
      roundFloat64 (roundFloat64 (slowest - fastest) / 10) * 9 :=
    mul_le_mul_of_nonneg_left hi9 h2n
  linarith

theorem bucketMarks_sorted (slowest fastest : ℚ) (h : fastest ≤ slowest)
    (hs : roundFloat64 slowest = slowest) :
    (bucketMarks slowest fastest).Sorted (· ≤ ·) := by
  have hD : 0 ≤ slowest - fastest := by linarith
  have hbs : 0 ≤ roundFloat64 (roundFloat64 (slowest - fastest) / 10) :=
    roundFloat64_nonneg _ (div_nonneg (roundFloat64_nonneg _ hD) (by norm_num))
  rw [bucketMarks_eq]
  unfold List.Sorted
  rw [List.pairwise_append]
  refine ⟨?_, List.pairwise_singleton _ _, ?_⟩
  · rw [List.pairwise_map]
    refine (List.pairwise_lt_range 10).imp ?_
    intro a b hab
    have hq : (a : ℚ) ≤ (b : ℚ) := by exact_mod_cast le_of_lt hab
    apply roundFloat64_mono
    have := roundFloat64_mono _ _ (mul_le_mul_of_nonneg_left hq hbs)
    linarith
  · intro a ha b hb
    rw [List.mem_singleton] at hb
    subst hb
    obtain ⟨i, hi, rfl⟩ := List.mem_map.mp ha
    have hi9 : i ≤ 9 := by
      have := List.mem_range.mp hi
      omega
    have h1 := bucketStep_le b fastest h i hi9
    have h2 := roundFloat64_mono
      (fastest + roundFloat64 (roundFloat64 (roundFloat64 (b - fastest) / 10) * (i : ℚ))) b
      (by linarith)
    rw [hs] at h2
    exact h2

theorem bucketMarks_const (x : ℚ) (hx : roundFloat64 x = x) : ∀ m ∈ bucketMarks x x, m = x := by
  intro m hm
  rw [bucketMarks_eq] at hm
  simp only [sub_self, roundFloat64_zero, zero_div, zero_mul, add_zero, hx, List.mem_append,
    List.mem_map, List.mem_range, List.mem_singleton] at hm
  rcases hm with ⟨_, _, h⟩ | h
  · exact h.symm
  · exact h

theorem sorted_head_le_getLast (xs : List ℚ) (hne : xs ≠ []) (hs : xs.Sorted (· ≤ ·)) :
    xs.head hne ≤ xs.getLast hne := by
  cases xs with
  | nil => exact absurd rfl hne
  | cons a t =>
    simp only [List.head_cons]
    rcases List.mem_cons.mp (List.getLast_mem hne) with h | h
    · rw [h]
    · exact List.rel_of_sorted_cons hs _ h

theorem getLast_eq_getD (xs : List ℚ) (hne : xs ≠ []) :
    xs.getLast hne = xs.getD (xs.length - 1) 0 := by
  have hpos : 0 < xs.length := List.length_pos.mpr hne
  have hl1 : xs.length - 1 < xs.length := by omega
  rw [List.getLast_eq_getElem]
  simp [List.getD_eq_getElem?_getD, List.getElem?_eq_getElem hl1]

theorem head_eq_getD (xs : List ℚ) (hne : xs ≠ []) : xs.head hne = xs.getD 0 0 := by
  cases xs with
  | nil => exact absurd rfl hne
  | cons a t => rfl

theorem sorted_le_getLast (xs : List ℚ) (hne : xs ≠ []) (hs : xs.Sorted (· ≤ ·)) (j : Nat)
    (hj : j < xs.length) : xs[j] ≤ xs.getLast hne := by
  rw [getLast_eq_getD]
  exact sorted_le_last xs hs j hj

theorem bucketMarks_head? (slowest fastest : ℚ) (hf : roundFloat64 fastest = fastest) :
    (bucketMarks slowest fastest).head? = some fastest := by
  have h : List.range 10 = 0 :: (List.range 9).map Nat.succ := by decide
  rw [bucketMarks_eq]
  simp [h, roundFloat64_zero, hf]

theorem bucketMarks_getLast? (slowest fastest : ℚ) :
    (bucketMarks slowest fastest).getLast? = some slowest := by
  simp [bucketMarks]

/-- Every eligible latency is a `float64` value: it is the result of
`Duration.Seconds()`. -/
theorem eligible_isFloat64 (r : Reporter) (x : ℚ) (hx : x ∈ eligible r) :
    roundFloat64 x = x := by
  have h1 : x ∈ okLats r := (List.perm_insertionSort _ _).mem_iff.mp hx
  unfold okLats at h1
  obtain ⟨d, _, rfl⟩ := List.mem_map.mp h1
  unfold Seconds
  exact roundFloat64_idem _

/-- C14, as stated, fails where it takes the arithmetic to be exact. For the
samples 1 s, 2 s, 2 s, 5 s the mark of bucket 6 is the `float64`
`3.4000000000000004`, not `1 + 6 * (5 - 1) / 10 = 17/5`. For a single record of
1001 ms the first mark is the `float64` nearest to `1.001`, and `Report.Fastest`
is 1000999999 ns, one nanosecond less than the recorded duration, so that the
first mark is not `Report.Fastest` in seconds. -/
theorem C14_marks_rounded_counterexample :
    (trackHistogram 14 [1, 2, 2, 5] 5 1).map (fun hist => (hist.map (fun b => b.Mark)).getD 6 0) =
      some (1914029841632461 / 562949953421312) ∧
    (1914029841632461 : ℚ) / 562949953421312 ≠ 1 + 6 * (5 - 1) / 10 ∧
    (Finalize 11 (Track (NewReporter "run" 0 false) [⟨none, "OK", 1001000000, 0⟩])
        ReasonNormalEnd Second 0).map
        (fun out => (out.2.Fastest, (out.2.Histogram.map (fun b => b.Mark)).head?)) =
      some (1000999999, some (2254051613498933 / 2251799813685248)) ∧
    Seconds 1000999999 ≠ 2254051613498933 / 2251799813685248 := by
  decide!

/-- C14 (amended): for a non-empty ascending list of `float64` values with minimum
`lo` (its first element) and maximum `hi` (its last), `trackHistogram` returns
exactly 11 buckets whose marks are the `float64` values `lo + bs * i` for
`i = 0..9`, with `bs = (hi - lo) / 10` and every operation rounded, followed by
`hi`; the first mark is `lo`, the last is `hi`, the marks are non-decreasing, and
all are equal when `lo = hi`. In the report of a run with eligible samples the
histogram has 11 non-decreasing marks, the first the smallest and the last the
largest eligible latency in seconds, and `Report.Fastest` and `Report.Slowest` are
the conversions of these two marks to nanoseconds. -/
theorem C14_bucket_marks (L : List ℚ) (hne : L ≠ []) (hs : L.Sorted (· ≤ ·))
    (hfl : ∀ x ∈ L, roundFloat64 x = x) (k : Nat)
    (r : Reporter) (stopReason : StopReason) (total now : Int) :
    (∃ hist, trackHistogram (L.length + 10 + k) L (L.getLast hne) (L.head hne) = some hist ∧
      hist.length = 11 ∧
      hist.map (fun b => b.Mark) =
        (List.range 10).map
          (fun (i : Nat) =>
            roundFloat64 (L.head hne +
              roundFloat64
                (roundFloat64 (roundFloat64 (L.getLast hne - L.head hne) / 10) * (i : ℚ)))) ++
          [L.getLast hne] ∧
      (hist.map (fun b => b.Mark)).head? = some (L.head hne) ∧
      (hist.map (fun b => b.Mark)).getLast? = some (L.getLast hne) ∧
      (hist.map (fun b => b.Mark)).Sorted (· ≤ ·) ∧
      (L.head hne = L.getLast hne → ∀ b ∈ hist, b.Mark = L.head hne)) ∧
    (okLats r ≠ [] →
      ∃ rep, Finalize (r.details.length + 10 + k) r stopReason total now = some (r, rep) ∧
        rep.Histogram.length = 11 ∧
        (rep.Histogram.map (fun b => b.Mark)).head? = some ((eligible r).getD 0 0) ∧
        (rep.Histogram.map (fun b => b.Mark)).getLast? =
          some ((eligible r).getD ((eligible r).length - 1) 0) ∧
        (rep.Histogram.map (fun b => b.Mark)).Sorted (· ≤ ·) ∧
        rep.Fastest = toDuration ((eligible r).getD 0 0) ∧
        rep.Slowest = toDuration ((eligible r).getD ((eligible r).length - 1) 0)) := by
  constructor
  · obtain ⟨hist, hh, -, hl⟩ := trackHistogram_sum L (L.getLast hne) (L.head hne)
      (L.length + 10 + k) (fun j hj => sorted_le_getLast L hne hs j hj) (by omega)
    obtain ⟨counts, max, -, -, -, hm, -⟩ := trackHistogram_eq_some _ _ _ _ _ hh
    have hf := hfl _ (List.head_mem hne)
    have hl2 := hfl _ (List.getLast_mem hne)
    refine ⟨hist, hh, hl, ?_, ?_, ?_, ?_, ?_⟩
    · rw [hm, bucketMarks_eq]
    · rw [hm, bucketMarks_head? _ _ hf]
    · rw [hm, bucketMarks_getLast?]
    · rw [hm]; exact bucketMarks_sorted _ _ (sorted_head_le_getLast L hne hs) hl2
    · intro heq b hb
      have hb2 : b.Mark ∈ bucketMarks (L.getLast hne) (L.head hne) := by
        rw [← hm]; exact List.mem_map_of_mem _ hb
      rw [← heq] at hb2
      exact bucketMarks_const _ hf _ hb2
  · intro he
    have hl := okLats_length_le r
    obtain ⟨hist, hh, -, hlen, hfin⟩ :=
      Finalize_eligible (r.details.length + 10 + k) r stopReason total now he (by omega)
    obtain ⟨counts, max, -, -, -, hm, -⟩ := trackHistogram_eq_some _ _ _ _ _ hh
    have hpos : 0 < (eligible r).length := by
      rw [eligible_length]; exact List.length_pos.mpr he
    have hne2 : eligible r ≠ [] := List.length_pos.mp hpos
    have m0 : (eligible r).getD 0 0 ∈ eligible r := by
      rw [← head_eq_getD _ hne2]; exact List.head_mem hne2
    have m1 : (eligible r).getD ((eligible r).length - 1) 0 ∈ eligible r := by
      rw [← getLast_eq_getD _ hne2]; exact List.getLast_mem hne2
    have hle : (eligible r).getD 0 0 ≤ (eligible r).getD ((eligible r).length - 1) 0 := by
      rw [← head_eq_getD _ hne2, ← getLast_eq_getD _ hne2]
      exact sorted_head_le_getLast _ hne2 (eligible_sorted r)
    refine ⟨_, hfin, hlen, ?_, ?_, ?_, rfl, rfl⟩
    · show (hist.map (fun b => b.Mark)).head? = _
      rw [hm, bucketMarks_head? _ _ (eligible_isFloat64 r _ m0)]
    · show (hist.map (fun b => b.Mark)).getLast? = _
      rw [hm, bucketMarks_getLast?]
    · show (hist.map (fun b => b.Mark)).Sorted (· ≤ ·)
      rw [hm]
      exact bucketMarks_sorted _ _ hle (eligible_isFloat64 r _ m1)

/-- C14 (amended) at the samples 1 s, 2 s, 2 s, 5 s and a run of three records. -/
theorem C14_bucket_marks_witness :
    ∃ hist, trackHistogram (4 + 10 + 0) [1, 2, 2, 5]
        (([1, 2, 2, 5] : List ℚ).getLast (by simp)) (([1, 2, 2, 5] : List ℚ).head (by simp)) =
          some hist ∧
      hist.length = 11 :=
  let ⟨hist, h1, h2, _⟩ := (C14_bucket_marks [1, 2, 2, 5] (by simp) (by decide!) (by decide!) 0
    (Track (NewReporter "run" 0 false)
      [⟨none, "OK", 5, 0⟩, ⟨some "e", "OK", 7, 1⟩, ⟨none, "OK", 9, 2⟩])
    ReasonNormalEnd Second 0).1
  ⟨hist, h1, h2⟩

theorem firstNotExceeded_eq_iff (marks : List ℚ) (x : ℚ) (j : Nat) (hj : j < marks.length) :
    firstNotExceeded marks x = j ↔
      x ≤ marks.getD j 0 ∧ ∀ k, k < j → marks.getD k 0 < x := by
  induction marks generalizing j with
  | nil => simp at hj
  | cons m ms ih =>
    cases j with
    | zero =>
      unfold firstNotExceeded
      by_cases h : x ≤ m
      · simp [h]
      · simp [h]
    | succ n =>
      have hn : n < ms.length := by simpa using hj
      unfold firstNotExceeded
      by_cases h : x ≤ m
      · simp only [h, if_true, List.getD_cons_succ]
        constructor
        · intro h0; omega
        · intro ⟨_, h2⟩
          have := h2 0 (by omega)
          simp only [List.getD_cons_zero] at this
          exact absurd h (not_le.mpr this)
      · simp only [h, if_false, add_left_inj, ih n hn, List.getD_cons_succ]
        constructor
        · intro ⟨h1, h2⟩
          refine ⟨h1, ?_⟩
          intro k hk
          cases k with
          | zero => simpa using not_le.mp h
          | succ k' => simpa using h2 k' (by omega)
        · intro ⟨h1, h2⟩
          refine ⟨h1, ?_⟩
          intro k hk
          simpa using h2 (k + 1) (by omega)

theorem bump_getD (counts : List Int) (bi j : Nat) (h : bi < counts.length) :
    (bump counts bi).getD j 0 = counts.getD j 0 + (if j = bi then 1 else 0) := by
  unfold bump
  simp only [List.getD_eq_getElem?_getD, List.getElem?_set]
  by_cases hj : bi = j
  · subst hj
    simp [h]
  · have hj2 : ¬ j = bi := fun e => hj e.symm
    simp [hj, hj2]

/-- Loop invariant of the cursor loop on an ascending list: when the loop returns,
every sample from the cursor on has been counted in the first boundary that it
does not exceed. -/
theorem histLoop_counts (latencies buckets : List ℚ) (hs : latencies.Sorted (· ≤ ·))
    (fuel : Nat) :
    ∀ (i bi : Nat) (counts : List Int) (max : Int) (res : List Int × Int),
      bi < buckets.length → buckets.length ≤ counts.length →
      (∀ x ∈ latencies.drop i, ∀ k, k < bi → buckets.getD k 0 < x) →
      histLoop latencies buckets fuel i bi counts max = some res →
      ∀ j, res.1.getD j 0 = counts.getD j 0 +
        (((latencies.drop i).countP
          (fun x => decide (firstNotExceeded buckets x = j)) : Nat) : Int) := by
  induction fuel with
  | zero =>
    intro i bi counts max res _ _ _ h j
    unfold histLoop at h
    split at h
    · simp at h
    · have hi : latencies.length ≤ i := by omega
      simp only [Option.some.injEq] at h
      subst h
      simp [List.drop_of_length_le hi]
  | succ fuel ih =>
    intro i bi counts max res hbi hlen hinv h j
    unfold histLoop at h
    split at h
    · rename_i hi
      have hdrop : latencies.drop i = latencies[i] :: latencies.drop (i + 1) :=
        List.drop_eq_getElem_cons hi
      have hsd : (latencies.drop i).Sorted (· ≤ ·) := List.Pairwise.drop hs
      rw [hdrop] at hsd
      have hle : ∀ y ∈ latencies.drop i, latencies[i] ≤ y := by
        intro y hy
        rw [hdrop] at hy
        rcases List.mem_cons.mp hy with e | hy
        · rw [e]
        · exact List.rel_of_sorted_cons hsd y hy
      split at h
      · rename_i hcmp
        have hfirst : firstNotExceeded buckets latencies[i] = bi :=
          (firstNotExceeded_eq_iff buckets _ bi hbi).mpr
            ⟨hcmp, fun k hk => hinv _ (by rw [hdrop]; exact List.mem_cons_self _ _) k hk⟩
        have := ih (i + 1) bi _ _ res (by exact hbi) (by rw [bump_length]; exact hlen)
          (fun x hx k hk => hinv x (by rw [hdrop]; exact List.mem_cons_of_mem _ hx) k hk) h j
        rw [this, bump_getD counts bi j (by omega), hdrop, List.countP_cons, hfirst]
        by_cases hj : j = bi
        · subst hj
          simp only [if_true, decide_True]
          push_cast; ring
        · have hj2 : ¬ bi = j := fun e => hj e.symm
          simp [hj, hj2]
      · rename_i hcmp
        split at h
        · rename_i hb
          refine ih i (bi + 1) counts max res (by omega) hlen ?_ h j
          intro x hx k hk
          rcases Nat.lt_succ_iff_lt_or_eq.mp hk with hk | hk
          · exact hinv x hx k hk
          · subst hk
            exact lt_of_lt_of_le (not_le.mp hcmp) (hle x hx)
        · exact ih i bi counts max res hbi hlen hinv h j
    · have hi : latencies.length ≤ i := by omega
      simp only [Option.some.injEq] at h
      subst h
      simp [List.drop_of_length_le hi]

theorem getD_replicate_zero (n j : Nat) : (List.replicate n (0 : Int)).getD j 0 = 0 := by
  rw [List.getD_eq_getElem?_getD, List.getElem?_replicate]
  split <;> rfl

theorem eq_range_map_of_getD (l : List Int) (n : Nat) (f : Nat → Int) (hl : l.length = n)
    (h : ∀ j, j < n → l.getD j 0 = f j) : l = (List.range n).map f := by
  apply List.ext_getElem
  · simp [hl]
  · intro i h1 h2
    have := h i (by omega)
    simp only [List.getD_eq_getElem?_getD, List.getElem?_eq_getElem h1, Option.getD_some] at this
    simp [this]

theorem firstNotExceeded_eq_iff_sorted (marks : List ℚ) (hm : marks.Sorted (· ≤ ·)) (x : ℚ)
    (j : Nat) (hj : j < marks.length) :
    firstNotExceeded marks x = j ↔
      (j = 0 ∨ marks.getD (j - 1) 0 < x) ∧ x ≤ marks.getD j 0 := by
  rw [firstNotExceeded_eq_iff marks x j hj]
  constructor
  · intro ⟨h1, h2⟩
    refine ⟨?_, h1⟩
    rcases Nat.eq_zero_or_pos j with h0 | h0
    · exact Or.inl h0
    · exact Or.inr (h2 (j - 1) (by omega))
  · intro ⟨h1, h2⟩
    refine ⟨h2, ?_⟩
    intro k hk
    rcases h1 with h0 | h1
    · omega
    · exact lt_of_le_of_lt (sorted_getD_le marks hm k (j - 1) (by omega) (by omega)) h1

theorem sorted_mem_bounds (xs : List ℚ) (hne : xs ≠ []) (hs : xs.Sorted (· ≤ ·)) (x : ℚ)
    (hx : x ∈ xs) : xs.head hne ≤ x ∧ x ≤ xs.getLast hne := by
  constructor
  · cases xs with
    | nil => exact absurd rfl hne
    | cons a t =>
      simp only [List.head_cons]
      rcases List.mem_cons.mp hx with h | h
      · rw [h]
      · exact List.rel_of_sorted_cons hs _ h
  · obtain ⟨i, hi, rfl⟩ := List.getElem_of_mem hx
    exact sorted_le_getLast xs hne hs i hi

/-- Counts of a returned histogram on an ascending list: bucket `j` holds the
samples whose first boundary not exceeded is `j`. -/
theorem trackHistogram_counts (fuel : Nat) (latencies : List ℚ) (slowest fastest : ℚ)
    (hs : latencies.Sorted (· ≤ ·)) (hist : List Bucket)
    (h : trackHistogram fuel latencies slowest fastest = some hist) :
    hist.map (fun b => b.Count) =
      (List.range 11).map (fun j =>
        ((latencies.countP
          (fun x => decide (firstNotExceeded (bucketMarks slowest fastest) x = j)) : Nat) :
          Int)) := by
  obtain ⟨counts, max, hl, hc, -, -, hcount⟩ := trackHistogram_eq_some _ _ _ _ _ h
  rw [hcount]
  apply eq_range_map_of_getD counts 11 _ hc
  intro j _
  have := histLoop_counts latencies (bucketMarks slowest fastest) hs fuel 0 0
    (List.replicate 11 0) 0 (counts, max) (by rw [bucketMarks_length]; omega)
    (by rw [bucketMarks_length]; simp) (fun _ _ k hk => absurd hk (Nat.not_lt_zero k)) hl j
  simp only [List.drop_zero] at this
  rw [this, getD_replicate_zero, zero_add]

theorem range_map_head_only (n : Int) :
    (List.range 11).map (fun j => if j = 0 then n else 0) = n :: List.replicate 10 0 := by
  rfl

/-- C15: on a non-empty ascending list of `float64` values with `fastest` its first
and `slowest` its last element `trackHistogram` counts every sample in the first boundary that it
does not exceed: bucket 0 counts the samples `≤ mark 0`, and bucket `j ≥ 1` counts
the samples `x` with `mark (j-1) < x ≤ mark j`; when the first and the last
element are equal all `N` samples are counted in bucket 0 and the other ten
buckets have count 0. -/
theorem C15_bucket_counts (L : List ℚ) (hne : L ≠ []) (hs : L.Sorted (· ≤ ·))
    (hfl : ∀ x ∈ L, roundFloat64 x = x) (k : Nat) :
    ∃ hist, trackHistogram (L.length + 10 + k) L (L.getLast hne) (L.head hne) = some hist ∧
      hist.map (fun b => b.Count) =
        (List.range 11).map (fun j =>
          ((L.countP
            (fun x => decide (firstNotExceeded (hist.map (fun b => b.Mark)) x = j)) : Nat) :
            Int)) ∧
      hist.map (fun b => b.Count) =
        (List.range 11).map (fun j =>
          ((L.countP (fun x => decide
            ((j = 0 ∨ (hist.map (fun b => b.Mark)).getD (j - 1) 0 < x) ∧
              x ≤ (hist.map (fun b => b.Mark)).getD j 0)) : Nat) : Int)) ∧
      (L.head hne = L.getLast hne →
        hist.map (fun b => b.Count) = (L.length : Int) :: List.replicate 10 0) := by
  obtain ⟨hist, hh, -, -⟩ := trackHistogram_sum L (L.getLast hne) (L.head hne)
    (L.length + 10 + k) (fun j hj => sorted_le_getLast L hne hs j hj) (by omega)
  obtain ⟨counts, max, -, -, -, hm, -⟩ := trackHistogram_eq_some _ _ _ _ _ hh
  have hc := trackHistogram_counts _ L _ _ hs hist hh
  have hsorted := bucketMarks_sorted _ _ (sorted_head_le_getLast L hne hs)
    (hfl _ (List.getLast_mem hne))
  have hlen := bucketMarks_length (L.getLast hne) (L.head hne)
  refine ⟨hist, hh, ?_, ?_, ?_⟩
  · rw [hm]; exact hc
  · rw [hm, hc]
    apply List.map_congr_left
    intro j hj
    have hj2 : j < (bucketMarks (L.getLast hne) (L.head hne)).length := by
      rw [hlen]; exact List.mem_range.mp hj
    congr 1
    apply List.countP_congr
    intro x _
    simp only [decide_eq_true_eq]
    exact firstNotExceeded_eq_iff_sorted _ hsorted x j hj2
  · intro heq
    rw [hc, ← range_map_head_only]
    apply List.map_congr_left
    intro j hj
    have hj2 : j < (bucketMarks (L.getLast hne) (L.head hne)).length := by
      rw [hlen]; exact List.mem_range.mp hj
    have hall : ∀ x ∈ L, firstNotExceeded (bucketMarks (L.getLast hne) (L.head hne)) x = 0 := by
      intro x hx
      have hb := sorted_mem_bounds L hne hs x hx
      rw [firstNotExceeded_eq_iff _ x 0 (by rw [hlen]; omega)]
      refine ⟨?_, fun k hk => absurd hk (Nat.not_lt_zero k)⟩
      have h0 : (bucketMarks (L.getLast hne) (L.head hne)).getD 0 0 = L.head hne := by
        have := bucketMarks_head? (L.getLast hne) (L.head hne) (hfl _ (List.head_mem hne))
        rw [List.head?_eq_getElem?] at this
        simp [List.getD_eq_getElem?_getD, this]
      rw [h0, heq]; exact hb.2
    by_cases h0 : j = 0
    · subst h0
      simp only [if_true]
      congr 1
      rw [List.countP_eq_length]
      intro x hx
      simp [hall x hx]
    · simp only [h0, if_false]
      have : L.countP
          (fun x => decide (firstNotExceeded (bucketMarks (L.getLast hne) (L.head hne)) x = j)) =
          0 := by
        rw [List.countP_eq_zero]
        intro x hx
        simp only [decide_eq_true_eq, hall x hx]
        exact fun e => h0 e.symm
      rw [this]; rfl

/-- C15 at the samples 1 s, 2 s, 2 s, 5 s. -/
theorem C15_bucket_counts_witness :
    ∃ hist, trackHistogram (4 + 10 + 0) [1, 2, 2, 5]
        (([1, 2, 2, 5] : List ℚ).getLast (by simp)) (([1, 2, 2, 5] : List ℚ).head (by simp)) =
          some hist ∧
      hist.map (fun b => b.Count) =
        (List.range 11).map (fun j =>
          ((([1, 2, 2, 5] : List ℚ).countP
            (fun x => decide (firstNotExceeded (hist.map (fun b => b.Mark)) x = j)) : Nat) :
            Int)) :=
  let ⟨hist, h1, h2, _⟩ := C15_bucket_counts [1, 2, 2, 5] (by simp) (by decide!) (by decide!) 0
  ⟨hist, h1, h2⟩

/-- The cursor loop never returns when a sample from the cursor on exceeds every
boundary: each run out of fuel, whatever the fuel. -/
theorem histLoop_none_of_exceeds (latencies buckets : List ℚ) (idx : Nat)
    (hidx : idx < latencies.length) (hex : ∀ m ∈ buckets, m < latencies[idx]) (fuel : Nat) :
    ∀ (i bi : Nat) (counts : List Int) (max : Int),
      i ≤ idx → bi < buckets.length →
      histLoop latencies buckets fuel i bi counts max = none := by
  induction fuel with
  | zero =>
    intro i bi counts max hi _
    unfold histLoop
    have : i < latencies.length := by omega
    simp [this]
  | succ fuel ih =>
    intro i bi counts max hi hbi
    have hil : i < latencies.length := by omega
    have hmem : buckets.getD bi 0 ∈ buckets := by
      rw [List.getD_eq_getElem?_getD, List.getElem?_eq_getElem hbi]
      exact List.getElem_mem hbi
    unfold histLoop
    simp only [hil, dite_true]
    split
    · rename_i hcmp
      have hne : i ≠ idx := by
        intro e
        subst e
        exact absurd hcmp (not_le.mpr (hex _ hmem))
      exact ih _ _ _ _ (by omega) hbi
    · split
      · exact ih _ _ _ _ hi (by omega)
      · exact ih _ _ _ _ hi hbi

/-- The call `trackHistogram(L, slowest, fastest)` never returns when
`fastest ≤ slowest`, `slowest` is a `float64` value and some sample exceeds
`slowest`. -/
theorem trackHistogram_none_of_exceeds (latencies : List ℚ) (slowest fastest : ℚ)
    (hfs : fastest ≤ slowest) (hsl : roundFloat64 slowest = slowest) (x : ℚ)
    (hx : x ∈ latencies) (hgt : slowest < x) (fuel : Nat) :
    trackHistogram fuel latencies slowest fastest = none := by
  obtain ⟨idx, hidx, rfl⟩ := List.getElem_of_mem hx
  have hsorted := bucketMarks_sorted slowest fastest hfs hsl
  have hlen := bucketMarks_length slowest fastest
  have hex : ∀ m ∈ bucketMarks slowest fastest, m < latencies[idx] := by
    intro m hm
    obtain ⟨j, hj, rfl⟩ := List.getElem_of_mem hm
    have h1 := sorted_getD_le _ hsorted j 10 (by omega) (by omega)
    rw [bucketMarks_last] at h1
    have h2 : (bucketMarks slowest fastest).getD j 0 = (bucketMarks slowest fastest)[j] := by
      simp [List.getD_eq_getElem?_getD, List.getElem?_eq_getElem hj]
    rw [h2] at h1
    exact lt_of_le_of_lt h1 hgt
  unfold trackHistogram
  simp only []
  rw [histLoop_none_of_exceeds latencies _ idx hidx hex fuel 0 0 _ 0 (Nat.zero_le _)
    (by rw [hlen]; omega)]

/-- C16, as stated, fails: for the ascending list of 1 s and 2 s with
`slowest = fastest = 1` the sample 2 exceeds the last boundary, and the call does
not return, whatever the fuel: with the boundary cursor on the last boundary
neither branch of the loop body changes the state. -/
theorem C16_exceeding_sample_counterexample :
    ¬ ∃ fuel hist, trackHistogram fuel [1, 2] 1 1 = some hist := by
  rintro ⟨fuel, hist, h⟩
  rw [trackHistogram_none_of_exceeds [1, 2] 1 1 (le_refl 1) (by decide!) 2 (by simp)
    (by norm_num) fuel] at h
  exact absurd h (by simp)

/-- C16 (amended): a call `trackHistogram(L, slowest, fastest)` with
`fastest ≤ slowest`, `slowest` a `float64` value, in which some sample exceeds
`slowest`, the last boundary, does not return: the model runs out of fuel for
every fuel. `Finalize` makes no such call: it passes the largest eligible sample
as `slowest`, so no sample exceeds the last mark, the call returns, and the final
(11th) bucket counts exactly the samples that exceed the tenth mark. -/
theorem C16_call_beyond_last_mark (L : List ℚ) (slowest fastest : ℚ) (hfs : fastest ≤ slowest)
    (hsl : roundFloat64 slowest = slowest) (x : ℚ) (hx : x ∈ L) (hgt : slowest < x)
    (r : Reporter) (stopReason : StopReason) (total now : Int) (k : Nat) :
    (∀ fuel, trackHistogram fuel L slowest fastest = none) ∧
    (okLats r ≠ [] →
      ∃ rep, Finalize (r.details.length + 10 + k) r stopReason total now = some (r, rep) ∧
        (rep.Histogram.map (fun b => b.Mark)).getD 10 0 =
          (eligible r).getD ((eligible r).length - 1) 0 ∧
        (∀ y ∈ eligible r, y ≤ (rep.Histogram.map (fun b => b.Mark)).getD 10 0) ∧
        (rep.Histogram.map (fun b => b.Count)).getD 10 0 =
          (((eligible r).countP
            (fun y => decide ((rep.Histogram.map (fun b => b.Mark)).getD 9 0 < y)) : Nat) :
            Int)) := by
  refine ⟨fun fuel => trackHistogram_none_of_exceeds L slowest fastest hfs hsl x hx hgt fuel, ?_⟩
  intro he
  have hl := okLats_length_le r
  obtain ⟨hist, hh, -, -, hfin⟩ :=
    Finalize_eligible (r.details.length + 10 + k) r stopReason total now he (by omega)
  obtain ⟨counts, max, -, -, -, hm, -⟩ := trackHistogram_eq_some _ _ _ _ _ hh
  have hc := trackHistogram_counts _ _ _ _ (eligible_sorted r) hist hh
  have hpos : 0 < (eligible r).length := by
    rw [eligible_length]; exact List.length_pos.mpr he
  have hne2 : eligible r ≠ [] := List.length_pos.mp hpos
  have m1 : (eligible r).getD ((eligible r).length - 1) 0 ∈ eligible r := by
    rw [← getLast_eq_getD _ hne2]; exact List.getLast_mem hne2
  have hle : (eligible r).getD 0 0 ≤ (eligible r).getD ((eligible r).length - 1) 0 := by
    rw [← head_eq_getD _ hne2, ← getLast_eq_getD _ hne2]
    exact sorted_head_le_getLast _ hne2 (eligible_sorted r)
  have hsorted := bucketMarks_sorted _ _ hle (eligible_isFloat64 r _ m1)
  have hlen := bucketMarks_length ((eligible r).getD ((eligible r).length - 1) 0)
    ((eligible r).getD 0 0)
  have hmax : ∀ y ∈ eligible r, y ≤ (eligible r).getD ((eligible r).length - 1) 0 := by
    intro y hy
    rw [← getLast_eq_getD _ hne2]
    exact (sorted_mem_bounds _ hne2 (eligible_sorted r) y hy).2
  refine ⟨_, hfin, ?_, ?_, ?_⟩
  · show (hist.map (fun b => b.Mark)).getD 10 0 = _
    rw [hm, bucketMarks_last]
  · intro y hy
    show y ≤ (hist.map (fun b => b.Mark)).getD 10 0
    rw [hm, bucketMarks_last]
    exact hmax y hy
  · show (hist.map (fun b => b.Count)).getD 10 0 =
      (((eligible r).countP
        (fun y => decide ((hist.map (fun b => b.Mark)).getD 9 0 < y)) : Nat) : Int)
    rw [hm, hc]
    have h10 : (10 : Nat) < (List.range 11).length := by simp
    rw [List.getD_eq_getElem?_getD, List.getElem?_map, List.getElem?_range (by omega)]
    simp only [Option.map_some', Option.getD_some]
    congr 1
    apply List.countP_congr
    intro y hy
    simp only [decide_eq_true_eq]
    rw [firstNotExceeded_eq_iff_sorted _ hsorted y 10 (by rw [hlen]; omega), bucketMarks_last]
    constructor
    · rintro ⟨h1 | h1, -⟩
      · omega
      · exact h1
    · intro h1
      exact ⟨Or.inr h1, hmax y hy⟩

/-- C16 (amended) at the samples 1 s, 2 s, 2 s, 5 s with `slowest = 4`: the
sample 5 exceeds the last boundary and the call does not return. -/
theorem C16_call_beyond_last_mark_witness :
    (1 : ℚ) ≤ 4 ∧ (5 : ℚ) ∈ ([1, 2, 2, 5] : List ℚ) ∧ (4 : ℚ) < 5 ∧
      ∀ fuel, trackHistogram fuel [1, 2, 2, 5] 4 1 = none :=
  ⟨by norm_num, by simp, by norm_num,
    (C16_call_beyond_last_mark [1, 2, 2, 5] 4 1 (by norm_num) (by decide!) 5 (by simp) (by norm_num)
      (NewReporter "run" 0 false) ReasonNormalEnd Second 0 0).1⟩

/-- More fuel does not change the result of a loop that returns. -/
theorem histLoop_fuel_mono (latencies buckets : List ℚ) (fuel : Nat) :
    ∀ (i bi : Nat) (counts : List Int) (max : Int) (res : List Int × Int) (k : Nat),
      histLoop latencies buckets fuel i bi counts max = some res →
      histLoop latencies buckets (fuel + k) i bi counts max = some res := by
  induction fuel with
  | zero =>
    intro i bi counts max res k h
    unfold histLoop at h
    split at h
    · simp at h
    · rename_i hi
      cases k with
      | zero => unfold histLoop; simp only [hi, if_false]; exact h
      | succ k =>
        rw [show 0 + (k + 1) = k + 1 by omega]
        unfold histLoop
        simp only [hi, dite_false]; exact h
  | succ fuel ih =>
    intro i bi counts max res k h
    rw [show fuel + 1 + k = (fuel + k) + 1 by omega]
    unfold histLoop at h ⊢
    split
    · rename_i hi
      simp only [hi, dite_true] at h
      split
      · rename_i hcmp
        simp only [hcmp, if_true] at h
        exact ih _ _ _ _ _ k h
      · rename_i hcmp
        simp only [hcmp, if_false] at h
        split
        · rename_i hb
          simp only [hb, if_true] at h
          exact ih _ _ _ _ _ k h
        · rename_i hb
          simp only [hb, if_false] at h
          exact ih _ _ _ _ _ k h
    · rename_i hi
      simp only [hi, dite_false] at h
      exact h

theorem trackHistogram_fuel_mono (fuel k : Nat) (latencies : List ℚ) (slowest fastest : ℚ)
    (hist : List Bucket) (h : trackHistogram fuel latencies slowest fastest = some hist) :
    trackHistogram (fuel + k) latencies slowest fastest = some hist := by
  unfold trackHistogram at h ⊢
  simp only [] at h ⊢
  cases hl : histLoop latencies (bucketMarks slowest fastest) fuel 0 0
      (List.replicate (bucketMarks slowest fastest).length 0) 0 with
  | none => rw [hl] at h; exact absurd h (by simp)
  | some res =>
    rw [hl] at h
    rw [histLoop_fuel_mono _ _ _ _ _ _ _ res k hl]
    exact h

/-! ## Rounding of the frequencies -/

theorem map_Frequency_zipWith (n : Nat) (buckets : List ℚ) (counts : List Int)
    (h : counts.length ≤ buckets.length) :
    (List.zipWith (toBucket n) buckets counts).map (fun b => b.Frequency) =
      counts.map (fun (c : Int) => roundFloat64 ((c : ℚ) / (n : ℚ))) := by
  induction counts generalizing buckets with
  | nil => simp
  | cons c t ih =>
    cases buckets with
    | nil => simp at h
    | cons b bs =>
      simp only [List.zipWith_cons_cons, List.map_cons, List.cons.injEq]
      exact ⟨rfl, ih bs (by simpa using h)⟩

theorem mem_zipWith_toBucket (n : Nat) (buckets : List ℚ) (counts : List Int) (b : Bucket)
    (hb : b ∈ List.zipWith (toBucket n) buckets counts) : ∃ m c, b = toBucket n m c := by
  induction buckets generalizing counts with
  | nil => simp at hb
  | cons m ms ih =>
    cases counts with
    | nil => simp at hb
    | cons c cs =>
      simp only [List.zipWith_cons_cons, List.mem_cons] at hb
      rcases hb with h | h
      · exact ⟨m, c, h⟩
      · exact ih cs h

theorem sum_roundFloat64_error (n : ℚ) (hn : 0 < n) (cs : List Int) (hcs : ∀ c ∈ cs, 0 ≤ c) :
    |(cs.map (fun (c : Int) => roundFloat64 ((c : ℚ) / n))).sum - ((cs.sum : Int) : ℚ) / n| ≤
      (((cs.sum : Int) : ℚ) / n) / 2 ^ 53 := by
  induction cs with
  | nil => simp
  | cons c t ih =>
    have hc : (0 : ℚ) ≤ (c : ℚ) / n := by
      have : (0 : ℚ) ≤ (c : ℚ) := by exact_mod_cast hcs c (List.mem_cons_self c t)
      positivity
    have h1 := roundFloat64_error _ hc
    have h2 := ih (fun x hx => hcs x (List.mem_cons_of_mem c hx))
    simp only [List.map_cons, List.sum_cons]
    rw [Int.cast_add]
    have e : roundFloat64 ((c : ℚ) / n) + (t.map (fun (c : Int) => roundFloat64 ((c : ℚ) / n))).sum -
        ((c : ℚ) + ((t.sum : Int) : ℚ)) / n =
        (roundFloat64 ((c : ℚ) / n) - (c : ℚ) / n) +
          ((t.map (fun (c : Int) => roundFloat64 ((c : ℚ) / n))).sum - ((t.sum : Int) : ℚ) / n) := by
      ring
    rw [e]
    have e2 : ((c : ℚ) + ((t.sum : Int) : ℚ)) / n / 2 ^ 53 =
        (c : ℚ) / n / 2 ^ 53 + ((t.sum : Int) : ℚ) / n / 2 ^ 53 := by ring
    rw [e2]
    exact le_trans (abs_add _ _) (add_le_add h1 h2)

/-- C17, as stated, fails for "exactly 1": each frequency is a `float64`
quotient. For the ten samples 0 s, 1 s, ..., 9 s ten buckets hold one sample each
with frequency the `float64` nearest to 1/10; these values add up to
`1 + 2^-54 = 18014398509481985 / 2^54`, and added up in `float64` arithmetic,
bucket by bucket, to `1 - 2^-53 = 9007199254740991 / 2^53`. -/
theorem C17_frequencies_not_exact_counterexample :
    (trackHistogram 20 [0, 1, 2, 3, 4, 5, 6, 7, 8, 9] 9 0).map
        (fun hist => (hist.map (fun b => b.Count), (hist.map (fun b => b.Frequency)).sum)) =
      some ([1, 0, 1, 1, 1, 1, 1, 1, 1, 1, 1], 18014398509481985 / 18014398509481984) ∧
    (trackHistogram 20 [0, 1, 2, 3, 4, 5, 6, 7, 8, 9] 9 0).map
        (fun hist => (hist.map (fun b => b.Frequency)).foldl
          (fun acc f => roundFloat64 (acc + f)) 0) =
      some (9007199254740991 / 9007199254740992) ∧
    (18014398509481985 : ℚ) / 18014398509481984 ≠ 1 ∧
    (9007199254740991 : ℚ) / 9007199254740992 ≠ 1 := by
  decide!

/-- C17 (amended): for every non-empty ascending list of `N` samples each bucket
returned by `trackHistogram` has `Frequency` equal to the `float64` quotient of
its `Count` by `N` (a bucket with count 0 has frequency 0); the counts sum to `N`,
and the frequencies sum to 1 up to a rounding error of at most `2^-53`. -/
theorem C17_frequencies (L : List ℚ) (hne : L ≠ []) (hs : L.Sorted (· ≤ ·)) (k : Nat) :
    ∃ hist, trackHistogram (L.length + 10 + k) L (L.getLast hne) (L.head hne) = some hist ∧
      (∀ b ∈ hist, b.Frequency = roundFloat64 ((b.Count : ℚ) / (L.length : ℚ)) ∧
        (b.Count = 0 → b.Frequency = 0)) ∧
      (hist.map (fun b => b.Count)).sum = (L.length : Int) ∧
      |(hist.map (fun b => b.Frequency)).sum - 1| ≤ 1 / 2 ^ 53 := by
  have hpos : 0 < L.length := List.length_pos.mpr hne
  have hposq : (0 : ℚ) < (L.length : ℚ) := by exact_mod_cast hpos
  obtain ⟨hist, hh, hsum, -⟩ := trackHistogram_sum L (L.getLast hne) (L.head hne)
    (L.length + 10 + k) (fun j hj => sorted_le_getLast L hne hs j hj) (by omega)
  obtain ⟨counts, max, -, hc, hz, -, hcount⟩ := trackHistogram_eq_some _ _ _ _ _ hh
  have hlen := bucketMarks_length (L.getLast hne) (L.head hne)
  refine ⟨hist, hh, ?_, hsum, ?_⟩
  · intro b hb
    have hfreq : b.Frequency = roundFloat64 ((b.Count : ℚ) / (L.length : ℚ)) := by
      rw [hz] at hb
      obtain ⟨m, c, rfl⟩ := mem_zipWith_toBucket _ _ _ b hb
      rfl
    refine ⟨hfreq, ?_⟩
    intro h0
    rw [hfreq, h0]
    simp [roundFloat64_zero]
  · have hnonneg : ∀ c ∈ counts, 0 ≤ c := by
      intro c hcm
      rw [← hcount, trackHistogram_counts _ L _ _ hs hist hh] at hcm
      obtain ⟨j, -, rfl⟩ := List.mem_map.mp hcm
      exact Int.natCast_nonneg _
    have hf : hist.map (fun b => b.Frequency) =
        counts.map (fun (c : Int) => roundFloat64 ((c : ℚ) / (L.length : ℚ))) := by
      rw [hz, map_Frequency_zipWith _ _ _ (by omega)]
    have hcs : counts.sum = (L.length : Int) := by rw [← hcount]; exact hsum
    have := sum_roundFloat64_error (L.length : ℚ) hposq counts hnonneg
    rw [hcs] at this
    have e1 : (((L.length : Int) : ℚ)) / (L.length : ℚ) = 1 := by
      push_cast; exact div_self (ne_of_gt hposq)
    rw [e1] at this
    rw [hf]; exact this

/-- C17 (amended) at the samples 1 s, 2 s, 2 s, 5 s. -/
theorem C17_frequencies_witness :
    ∃ hist, trackHistogram (4 + 10 + 0) [1, 2, 2, 5]
        (([1, 2, 2, 5] : List ℚ).getLast (by simp)) (([1, 2, 2, 5] : List ℚ).head (by simp)) =
          some hist ∧
      |(hist.map (fun b => b.Frequency)).sum - 1| ≤ 1 / 2 ^ 53 :=
  let ⟨hist, h1, _, _, h4⟩ := C17_frequencies [1, 2, 2, 5] (by simp) (by decide!) 0
  ⟨hist, h1, h4⟩

/-! ## Termination, index range and frame -/

/-- C18: for a non-empty ascending list whose largest sample is at most `slowest`
the cursor loop of `trackHistogram` returns within `len(L) + 10` executions of its
body, and more fuel does not change the result. `Finalize` never calls
`trackHistogram` or `latencies` on an empty list: with no eligible sample it
returns, for any fuel, a report without histogram and percentile table (a call of
`latencies` on the empty list would not return); with eligible samples the list
passed is non-empty and `slowest` is its largest element. -/
theorem C18_loop_terminates (L : List ℚ) (hne : L ≠ []) (hs : L.Sorted (· ≤ ·))
    (slowest fastest : ℚ) (hmax : L.getLast hne ≤ slowest) (k fuel : Nat)
    (r : Reporter) (stopReason : StopReason) (total now : Int) :
    (∃ hist, trackHistogram (L.length + 10) L slowest fastest = some hist ∧
      trackHistogram (L.length + 10 + k) L slowest fastest = some hist) ∧
    (okLats r = [] →
      ∃ rep, Finalize fuel r stopReason total now = some (r, rep) ∧
        rep.Histogram = [] ∧ rep.LatencyDistribution = []) ∧
    latencies [] = none ∧
    (okLats r ≠ [] →
      eligible r ≠ [] ∧
      (∀ x ∈ eligible r, x ≤ (eligible r).getD ((eligible r).length - 1) 0) ∧
      ∃ hist dist,
        trackHistogram ((eligible r).length + 10) (eligible r)
          ((eligible r).getD ((eligible r).length - 1) 0) ((eligible r).getD 0 0) =
            some hist ∧
        latencies (eligible r) = some dist ∧
        ∃ rep, Finalize ((eligible r).length + 10) r stopReason total now = some (r, rep) ∧
          rep.Histogram = hist ∧ rep.LatencyDistribution = dist) := by
  refine ⟨?_, ?_, by decide!, ?_⟩
  · obtain ⟨hist, hh, -, -⟩ := trackHistogram_sum L slowest fastest (L.length + 10)
      (fun j hj => le_trans (sorted_le_getLast L hne hs j hj) hmax) (le_refl _)
    exact ⟨hist, hh, trackHistogram_fuel_mono _ k _ _ _ _ hh⟩
  · intro he
    by_cases hd : r.details = []
    · exact ⟨_, Finalize_no_details fuel r stopReason total now hd, rfl, rfl⟩
    · exact ⟨_, Finalize_no_eligible fuel r stopReason total now hd he, rfl, rfl⟩
  · intro he
    have hpos : 0 < (eligible r).length := by
      rw [eligible_length]; exact List.length_pos.mpr he
    have hne2 : eligible r ≠ [] := List.length_pos.mp hpos
    obtain ⟨hist, hh, -, -, hfin⟩ := Finalize_eligible ((eligible r).length + 10) r stopReason
      total now he (by rw [eligible_length])
    refine ⟨hne2, ?_, hist, _, hh, latencies_eq (eligible r) hne2, _, hfin, rfl, rfl⟩
    intro x hx
    rw [← getLast_eq_getD _ hne2]
    exact (sorted_mem_bounds _ hne2 (eligible_sorted r) x hx).2

/-- C18 at the samples 1 s, 2 s, 2 s, 5 s with `slowest = 6`. -/
theorem C18_loop_terminates_witness :
    ∃ hist, trackHistogram (4 + 10) [1, 2, 2, 5] 6 1 = some hist ∧
      trackHistogram (4 + 10 + 3) [1, 2, 2, 5] 6 1 = some hist :=
  (C18_loop_terminates [1, 2, 2, 5] (by simp) (by decide!) 6 1 (by norm_num) 3 0
    (NewReporter "run" 0 false) ReasonNormalEnd Second 0).1

/-- C19: for every non-empty list of `N` samples and every rank `p` of the fixed
set the index computed by `latencies` satisfies `0 ≤ index < N`, so every lookup
succeeds and the call returns its table; on the empty list the index is clamped
to 0, which is out of range, and the call does not return. -/
theorem C19_index_in_range (lats : List ℚ) (hne : lats ≠ []) (p : Int) (hp : p ∈ pctls) :
    0 ≤ rankIndex p lats.length ∧ rankIndex p lats.length < (lats.length : Int) ∧
    (lats[(rankIndex p lats.length).toNat]?).isSome = true ∧
    (latencies lats).isSome = true ∧
    rankIndex p 0 = 0 ∧ ([] : List ℚ)[(rankIndex p 0).toNat]? = none ∧
    latencies [] = none := by
  have hn : 0 < lats.length := List.length_pos.mpr hne
  obtain ⟨h0, h1⟩ := mem_pctls_bounds p hp
  have hlt := rankIndex_lt p lats.length h0 h1 hn
  have hnn := rankIndex_nonneg p lats.length
  have hi : (rankIndex p lats.length).toNat < lats.length := by omega
  refine ⟨hnn, hlt, ?_, ?_, ?_, ?_, ?_⟩
  · rw [List.getElem?_eq_getElem hi]; rfl
  · rw [latencies_eq lats hne]; rfl
  · rw [rankIndex_eq_specIndex p 0 h0]
    simp [specIndex]
  · simp
  · decide!

/-- C19 at three samples and rank 99: the index is 2. -/
theorem C19_index_in_range_witness :
    0 ≤ rankIndex 99 ([1, 2, 3] : List ℚ).length ∧
    rankIndex 99 ([1, 2, 3] : List ℚ).length < 3 :=
  have h := C19_index_in_range [1, 2, 3] (by simp) 99 (by decide)
  ⟨h.1, h.2.1⟩

/-- C20: for every reporter state and every elapsed duration `Finalize` leaves
`Report.Total` and `Report.Tags` at their zero values. The elapsed duration enters
the report only through `Rps`: reports for two elapsed durations agree in every
other field; `Rps` is the total count divided by the elapsed seconds when details
were retained (and the elapsed duration is not zero), and is unpopulated
otherwise. -/
theorem C20_total_not_stored (r : Reporter) (stopReason : StopReason) (total total2 now : Int)
    (k : Nat) :
    ∃ rep rep2,
      Finalize (r.details.length + 10 + k) r stopReason total now = some (r, rep) ∧
      Finalize (r.details.length + 10 + k) r stopReason total2 now = some (r, rep2) ∧
      rep.Total = 0 ∧ rep.Tags = [] ∧
      rep2 = { rep with Rps := rep2.Rps } ∧
      (r.details = [] → rep.Rps = 0) ∧
      (r.details ≠ [] → total ≠ 0 → rep.Rps = (r.totalCount : ℚ) / Seconds total) := by
  by_cases hd : r.details = []
  · exact ⟨_, _, Finalize_no_details _ r stopReason total now hd,
      Finalize_no_details _ r stopReason total2 now hd, rfl, rfl, rfl, fun _ => rfl,
      fun h => absurd hd h⟩
  · by_cases he : okLats r = []
    · exact ⟨_, _, Finalize_no_eligible _ r stopReason total now hd he,
        Finalize_no_eligible _ r stopReason total2 now hd he, rfl, rfl, rfl,
        fun h => absurd h hd, fun _ _ => rfl⟩
    · have hl := okLats_length_le r
      obtain ⟨hist1, hh1, -, -, hfin1⟩ :=
        Finalize_eligible (r.details.length + 10 + k) r stopReason total now he (by omega)
      obtain ⟨hist2, hh2, -, -, hfin2⟩ :=
        Finalize_eligible (r.details.length + 10 + k) r stopReason total2 now he (by omega)
      have hh : hist2 = hist1 := Option.some.inj (hh2.symm.trans hh1)
      subst hh
      exact ⟨_, _, hfin1, hfin2, rfl, rfl, rfl, fun h => absurd h hd, fun _ _ => rfl⟩

/-- C20 at a run of one record of one second and an elapsed duration of two
seconds: the throughput is 1/2 per second. -/
theorem C20_total_not_stored_witness :
    ∃ rep,
      Finalize (1 + 10 + 0) (Track (NewReporter "run" 0 false) [⟨none, "OK", 1000000000, 0⟩])
          ReasonNormalEnd 2000000000 0 =
        some (Track (NewReporter "run" 0 false) [⟨none, "OK", 1000000000, 0⟩], rep) ∧
      rep.Total = 0 ∧ rep.Tags = [] ∧ rep.Rps = 1 / 2 :=
  let ⟨rep, _, h1, _, h3, h4, _, _, h7⟩ := C20_total_not_stored
    (Track (NewReporter "run" 0 false) [⟨none, "OK", 1000000000, 0⟩]) ReasonNormalEnd
    2000000000 1000000000 0 0
  ⟨rep, h1, h3, h4, (h7 (by decide) (by decide)).trans (by decide!)⟩

end ghz
